import Mathlib

set_option maxHeartbeats 1000000

/-!
Verification development for the schmoji-emoji asset-copy scripts.

The repository contains two batch tools:

* `scripts/rename_files.py` (the "Flattener"): walks per-emoji asset
  directories, reads `metadata.json` for the unicode code, and copies style
  files into a flat `unicode/<Style>/<code><ext>` tree.
* `scripts/copy_schmoji.py` (the "Selector"): copies a curated subset of
  codes/styles from the flat tree into a `schmoji/<Style>/<code><ext>` tree,
  with glob-based matching, a preference order, and remove-then-copy.

The embedding below models filenames as strings (lists of characters),
directories as finite maps from filename to file content, and the printed
diagnostics as a list of structured messages, one constructor per `print`
call in the source.  Python `sorted` over paths of one directory is string
sort by code point, modelled by insertion sort over the lexicographic
character order.  Glob patterns used by the source (`<code>*.*`, `<code>.*`,
`<code> fe0f.*`) are literal-prefix patterns and are modelled by their
matching semantics on names.
-/

/-- Decides whether the first character list is a prefix of the second
(the matching semantics of a glob pattern `lit*` against a name). -/
def listPre : List Char → List Char → Bool
  | [], _ => true
  | _ :: _, [] => false
  | a :: as, b :: bs => a == b && listPre as bs

/-- Lexicographic order on character lists by code point: the order Python
uses to compare the names of two paths in the same directory. -/
def listLe : List Char → List Char → Bool
  | [], _ => true
  | _ :: _, [] => false
  | a :: as, b :: bs => if a < b then true else if b < a then false else listLe as bs

/-- String comparison as used by Python `sorted` over same-directory paths. -/
def strLe (a b : String) : Bool := listLe a.toList b.toList

/-- The tail of a character list starting at its last dot, if any. -/
def extFrom : List Char → Option (List Char)
  | [] => none
  | c :: cs =>
    match extFrom cs with
    | some s => some s
    | none => if c == '.' then some (c :: cs) else none

/-- Embedding of `pathlib.PurePath.suffix`: the substring of the name from
its last dot, provided that dot is neither the first character nor the last
character of the name; otherwise the empty string. -/
def pathSuffix (name : String) : String :=
  match extFrom name.toList with
  | none => ""
  | some s => if s.length < name.toList.length && 1 < s.length then String.mk s else ""

/-- Embedding of Python `str.strip()`: remove leading and trailing
whitespace characters. -/
def pyStrip (s : String) : String :=
  String.mk (((s.toList.dropWhile Char.isWhitespace).reverse.dropWhile Char.isWhitespace).reverse)

/-- Embedding of Python `str.lower()` on the ASCII code and style strings
handled by these scripts: lowercase each character. -/
def pyLower (s : String) : String :=
  String.mk (s.toList.map Char.toLower)

/-- A directory entry: its name, its byte content, and whether it is a
regular file (as opposed to a subdirectory). -/
structure Entry where
  name : String
  content : String
  isFile : Bool
deriving DecidableEq, Repr

/-- Insert an entry into a name-sorted list of entries. -/
def insertEntry (f : Entry) : List Entry → List Entry
  | [] => [f]
  | g :: gs => if strLe f.name g.name then f :: g :: gs else g :: insertEntry f gs

/-- Embedding of Python `sorted` over the paths of one directory. -/
def sortEntries : List Entry → List Entry
  | [] => []
  | f :: fs => insertEntry f (sortEntries fs)

/-- Matching semantics of the glob pattern produced by the f-string
`f"{code}*.*"` in `copy_schmoji.py`: the name starts with the code and has a
dot at or after the end of the code. -/
def globMatch (code name : String) : Bool :=
  listPre code.toList name.toList && (name.toList.drop code.toList.length).contains '.'

/-- Matching semantics of the glob pattern `f"{code}.*"`. -/
def exactGlob (code name : String) : Bool :=
  listPre (code.toList ++ ['.']) name.toList

/-- Matching semantics of the glob pattern `f"{code} fe0f.*"`. -/
def fe0fGlob (code name : String) : Bool :=
  listPre (code.toList ++ [' ', 'f', 'e', '0', 'f', '.']) name.toList

/-- A destination directory: filename to file content. -/
abbrev Dir := String → Option String

/-- A destination tree: style-directory name to directory; `none` means the
directory does not exist. -/
abbrev OutTree := String → Option Dir

def emptyDir : Dir := fun _ => none

def emptyTree : OutTree := fun _ => none

/-- Writing (or overwriting) one file in a directory: `shutil.copy2`. -/
def dirWrite (d : Dir) (name content : String) : Dir :=
  fun n => if n = name then some content else d n

/-- Unlinking every directory entry matching the glob `<code>*.*`: the
removal loop of `copy_schmoji.py` lines 94-98. -/
def dirEraseGlob (code : String) (d : Dir) : Dir :=
  fun n => if globMatch code n then none else d n

/-- `mkdir(parents=True, exist_ok=True)` on one style directory. -/
def outMkdir (t : OutTree) (s : String) : OutTree :=
  fun s' => if s' = s then some ((t s).getD emptyDir) else t s'

/-- Apply a directory transformation at one style key of the tree. -/
def outUpdate (t : OutTree) (s : String) (f : Dir → Dir) : OutTree :=
  fun s' => if s' = s then some (f ((t s).getD emptyDir)) else t s'

/-- Content of the file `s/n` of a tree, if present. -/
def lookupFile (t : OutTree) (s n : String) : Option String :=
  match t s with
  | none => none
  | some d => d n

/-- Structured diagnostics, one constructor per `print` call of the two
scripts (string formatting of the messages is not modelled). -/
inductive Msg where
  | copy (style src target : String)
  | dryRunCopy (style src target : String)
  | dryRunRemovals (style code : String)
  | warnMissingStyle (style : String)
  | warnNotFound (style code : String)
  | warnFailedRead (dir : String)
  | warnMissingUnicode (dir : String)
  | summaryMissing
  | errPathNotFound
  | errUnicodeRootNotFound
  | infoHeader
  | infoDone
  | infoDryDone
deriving DecidableEq, Repr

/-! ## Selector: `scripts/copy_schmoji.py` -/

/-- The built-in curated code set `_SWIFT_CODES` (upper-case hex). -/
def SWIFT_CODES : List String :=
  ["1F40B", "1F456", "1F48E", "1F699", "1F6F8", "1F976", "1F9CA", "1F41F", "1FA72", "26F8",
   "1F954",
   "1F340", "1F36C", "1F40D", "1F422", "1F438", "1F966", "1F96C", "1F996", "1F432", "1F951",
   "1F34A", "1F357", "1F415", "1F431", "1F436", "1F439", "1F955", "1F981", "1F9F6", "1F621",
   "1F338", "1F351", "1F437", "1F498", "1F9A9", "1F9C1", "1F9E0", "1F9FC", "1FA79", "1FA81",
   "1F346", "1F347", "1F45A", "1F45B", "1F47E", "1F52E", "1F9AA", "1FA71", "1F97C", "1F43C",
   "1F336", "1F34E", "1F353", "1F3B8", "1F444", "1F479", "1F680", "1F681", "1F969", "1F980",
   "1F34C", "1F355", "1F44C", "1F4A1", "1F4AA", "1F603", "1F60E", "1F618", "1F602", "1F92F"]

def DEFAULT_STYLES : List String := ["Color", "3D"]

/-- Embedding of `parse_styles`: `None` or empty input falls back to the
default; otherwise split on commas, strip, drop empties, and fall back to
the default when nothing remains. -/
def parse_styles (arg : Option String) : List String :=
  match arg with
  | none => DEFAULT_STYLES
  | some a =>
    if a = "" then DEFAULT_STYLES
    else
      let parts := ((a.splitOn ",").map pyStrip).filter (fun p => p ≠ "")
      if parts = [] then DEFAULT_STYLES else parts

/-- Embedding of `normalize_codes`: strip and lowercase each code, drop
empties, and deduplicate preserving first occurrence. -/
def normalizeAux : List String → List String → List String
  | [], _ => []
  | c :: cs, seen =>
    let cc := pyLower (pyStrip c)
    if cc = "" then normalizeAux cs seen
    else if seen.contains cc then normalizeAux cs seen
    else cc :: normalizeAux cs (cc :: seen)

def normalize_codes (codes : List String) : List String := normalizeAux codes []

/-- Source style directories of the flat unicode tree: style name to the
list of entries of that directory (`none` when the directory is missing). -/
def lookupDir : List (String × List Entry) → String → Option (List Entry)
  | [], _ => none
  | (k, v) :: rest, s => if k = s then some v else lookupDir rest s

/-- The preferred-source choice of `copy_schmoji.py` lines 66-82: the sorted
candidates of the glob `<code>*.*`; if none, no file is chosen; otherwise
the first sorted match of `<code>.*`, else the first sorted match of
`<code> fe0f.*`, else the first candidate. -/
def selectPreferred (code : String) (src : List Entry) : Option Entry :=
  let candidates := sortEntries (src.filter (fun e => globMatch code e.name))
  match candidates with
  | [] => none
  | c0 :: _ =>
    match (sortEntries (src.filter (fun e => exactGlob code e.name))).head? with
    | some f => some f
    | none =>
      match (sortEntries (src.filter (fun e => fe0fGlob code e.name))).head? with
      | some f => some f
      | none => some c0

/-- State threaded through `copy_matches`: the destination tree, the printed
messages, and the local `any_missing` flag. -/
structure SelState where
  tree : OutTree
  log : List Msg
  anyMissing : Bool

/-- One (style, code) iteration of `copy_matches` (lines 66-100): warn and
set `any_missing` when no candidate exists; otherwise compute the normalized
destination name `<code><suffix>`, and either print the dry-run preview or
remove every destination file matching `<code>*.*` and copy the preferred
source file to the destination name. -/
def processCode (src : List Entry) (style code : String) (dry : Bool) (st : SelState) : SelState :=
  match selectPreferred code src with
  | none =>
    { st with log := st.log ++ [Msg.warnNotFound style code], anyMissing := true }
  | some f =>
    let dstName := code ++ pathSuffix f.name
    if dry then
      { st with log := st.log ++ [Msg.dryRunRemovals style code, Msg.dryRunCopy style f.name dstName] }
    else
      { st with
        tree := outUpdate st.tree style (fun d => dirWrite (dirEraseGlob code d) dstName f.content),
        log := st.log ++ [Msg.copy style f.name dstName] }

/-- The inner code loop of `copy_matches` (lines 66-100) over one style. -/
def runCodes (src : List Entry) (style : String) (codes : List String) (dry : Bool)
    (st : SelState) : SelState :=
  codes.foldl (fun s c => processCode src style c dry s) st

/-- The outer style loop of `copy_matches` (lines 57-100): warn and flag
when the source style directory is missing, otherwise create the
destination style directory (unless dry-run) and process every code. -/
def runStyles (root : List (String × List Entry)) (styles codes : List String)
    (dry : Bool) (st : SelState) : SelState :=
  styles.foldl (fun (st : SelState) style =>
    match lookupDir root style with
    | none =>
      { st with log := st.log ++ [Msg.warnMissingStyle style], anyMissing := true }
    | some src =>
      runCodes src style codes dry
        (if dry then st else { st with tree := outMkdir st.tree style })) st

/-- Embedding of `copy_matches` (lines 55-102): run the style and code
loops starting from a fresh `any_missing` flag; after the loops, print the
summary warning when anything was missing. -/
def copy_matches (root : List (String × List Entry)) (styles codes : List String)
    (dry : Bool) (t : OutTree) (log0 : List Msg) : SelState :=
  let st := runStyles root styles codes dry { tree := t, log := log0, anyMissing := false }
  if st.anyMissing then { st with log := st.log ++ [Msg.summaryMissing] } else st

/-- Embedding of the Selector `main` (lines 142-178), with the path
resolution heuristics abstracted into the two existence booleans: a missing
root path or a missing unicode root prints an error and exits with status 1
(`sys.exit(1)`); otherwise the informational header is printed,
`copy_matches` runs, and the process exits with status 0. -/
def copy_main (rootExists unicodeRootExists : Bool) (root : List (String × List Entry))
    (styles codes : List String) (dry : Bool) (t : OutTree) : SelState × Nat :=
  if rootExists = false then
    ({ tree := t, log := [Msg.errPathNotFound], anyMissing := false }, 1)
  else if unicodeRootExists = false then
    ({ tree := t, log := [Msg.errUnicodeRootNotFound], anyMissing := false }, 1)
  else
    (copy_matches root styles codes dry t [Msg.infoHeader], 0)

/-! ## Flattener: `scripts/rename_files.py` -/

def STYLE_DIRS : List String := ["Color", "Flat", "High Contrast", "3D"]

def IGNORE_FILES : List String := [".DS_Store"]

/-- Whether a name starts with a dot (`name.startswith(".")`). -/
def startsDot (name : String) : Bool :=
  match name.toList with
  | [] => false
  | c :: _ => c == '.'

/-- The file filter of `copy_in_style_dir` line 22-23: regular files, not in
`IGNORE_FILES`, not hidden. -/
def goodFile (e : Entry) : Bool :=
  e.isFile && !(IGNORE_FILES.contains e.name) && !(startsDot e.name)

/-- State threaded through the Flattener: destination tree plus printed
messages. -/
structure FS where
  tree : OutTree
  log : List Msg

/-- The copy loop of `copy_in_style_dir` (lines 32-39) over the filtered,
sorted files of one style directory. -/
def cisLoop (styleName code : String) (dry : Bool) (files : List Entry) (st : FS) : FS :=
  files.foldl (fun s f =>
    let target := code ++ pathSuffix f.name
    if dry then
      { s with log := s.log ++ [Msg.dryRunCopy styleName f.name target] }
    else
      { s with
        tree := outUpdate s.tree styleName (fun d => dirWrite d target f.content),
        log := s.log ++ [Msg.copy styleName f.name target] }) st

/-- Embedding of `copy_in_style_dir` (lines 13-39): do nothing when the
style path is not a directory; list its regular non-hidden files in sorted
order; do nothing when none remain; otherwise create the destination style
directory (unless dry-run) and run the copy loop. -/
def copy_in_style_dir (styleDir : Option (List Entry)) (styleName code : String)
    (dry : Bool) (st : FS) : FS :=
  match styleDir with
  | none => st
  | some entries =>
    let files := (sortEntries entries).filter goodFile
    if files = [] then st
    else
      cisLoop styleName code dry files
        (if dry then st else { st with tree := outMkdir st.tree styleName })

/-- The metadata record of an emoji directory: absent (`metadata.json` does
not exist), invalid (opening or JSON-parsing raises), or valid with the
string value of `str(meta.get("unicode", ""))`. -/
inductive MetaFile where
  | absent
  | invalid
  | valid (rawUnicode : String)
deriving DecidableEq, Repr

/-- A skin-tone variant subdirectory: its style subdirectories. -/
structure VariantDir where
  styles : String → Option (List Entry)

/-- An emoji source directory: its name, its metadata record, its variant
subdirectories (by name; only "Default" is ever read by the code), and its
direct style subdirectories. -/
structure EmojiDir where
  name : String
  meta : MetaFile
  variants : String → Option VariantDir
  rootStyles : String → Option (List Entry)

/-- The skin-tone resolution of `process_emoji_dir` line 60-62: when the
"Default" variant directory exists, the style directory is looked up under
it; otherwise under the emoji directory itself. -/
def resolvedStyleDir (e : EmojiDir) (style : String) : Option (List Entry) :=
  match e.variants "Default" with
  | some v => v.styles style
  | none => e.rootStyles style

/-- One iteration of the style loop of `process_emoji_dir` (lines 61-63). -/
def flatStep (e : EmojiDir) (code : String) (dry : Bool) (st : FS) (style : String) : FS :=
  copy_in_style_dir (resolvedStyleDir e style) style code dry st

/-- Embedding of `process_emoji_dir` (lines 42-63): silently skip when no
metadata record exists; warn and skip when it cannot be read; strip and
lowercase the unicode field, warning and skipping when it is empty; then
run `copy_in_style_dir` for each recognized style with the skin-tone
resolved source directory. -/
def process_emoji_dir (e : EmojiDir) (dry : Bool) (st : FS) : FS :=
  match e.meta with
  | MetaFile.absent => st
  | MetaFile.invalid => { st with log := st.log ++ [Msg.warnFailedRead e.name] }
  | MetaFile.valid raw =>
    let code := pyLower (pyStrip raw)
    if code = "" then { st with log := st.log ++ [Msg.warnMissingUnicode e.name] }
    else
      STYLE_DIRS.foldl (flatStep e code dry) st

/-- The child loop of the Flattener `main` (lines 145-150), over the emoji
directories it decides to process. -/
def processAll (dirs : List EmojiDir) (dry : Bool) (st : FS) : FS :=
  dirs.foldl (fun s e => process_emoji_dir e dry s) st

/-- Embedding of the Flattener `main` (lines 125-155), with path heuristics
abstracted into `rootExists` and the chosen emoji directories: a missing
root path prints an error and RETURNS from `main`, so the process exits
with status 0; otherwise the output style directories are created (unless
dry-run), every chosen directory is processed, and a final informational
line is printed; the exit status is 0. -/
def rename_main (rootExists : Bool) (dirs : List EmojiDir) (dry : Bool) (t : OutTree) : FS × Nat :=
  if rootExists = false then
    ({ tree := t, log := [Msg.errPathNotFound] }, 0)
  else
    let st1 : FS :=
      if dry then { tree := t, log := [] }
      else { tree := STYLE_DIRS.foldl (fun tr s => outMkdir tr s) t, log := [] }
    let st2 := processAll dirs dry st1
    ({ st2 with log := st2.log ++ [if dry then Msg.infoDryDone else Msg.infoDone] }, 0)

/-! ## Helper definitions used by the proofs -/

/-- Name-sortedness of an entry list. -/
def SortedE (l : List Entry) : Prop :=
  l.Pairwise (fun a b => strLe a.name b.name = true)

/-- The cumulative effect of the Flattener copy loop on one directory. -/
def wAll (code : String) (files : List Entry) (d : Dir) : Dir :=
  files.foldl (fun d f => dirWrite d (code ++ pathSuffix f.name) f.content) d

/-- Content written at name `n` by the LAST file of `files` whose
destination name `<code><suffix>` is `n`, if any. -/
def lastTgt (code n : String) : List Entry → Option String
  | [] => none
  | f :: fs =>
    match lastTgt code n fs with
    | some c => some c
    | none => if code ++ pathSuffix f.name = n then some f.content else none

/-- The per-code transformation of one destination style directory performed
by a non-dry `processCode` run. -/
def applyCodeDir (src : List Entry) (code : String) (d : Dir) : Dir :=
  match selectPreferred code src with
  | none => d
  | some f => dirWrite (dirEraseGlob code d) (code ++ pathSuffix f.name) f.content

/-- The cumulative transformation of one destination style directory by the
code loop of a non-dry Selector run. -/
def dirRun (src : List Entry) (codes : List String) (d : Dir) : Dir :=
  codes.foldl (fun d c => applyCodeDir src c d) d

/-- Whether processing `code` can change the destination entry named `n`. -/
def touches (src : List Entry) (code n : String) : Bool :=
  match selectPreferred code src with
  | none => false
  | some f => globMatch code n || decide (n = code ++ pathSuffix f.name)

/-- The tree-level effect of one style iteration of a non-dry Selector run. -/
def styleStep (root : List (String × List Entry)) (codes : List String)
    (t : OutTree) (style : String) : OutTree :=
  match lookupDir root style with
  | none => t
  | some src =>
    fun s' => if s' = style then some (dirRun src codes ((t style).getD emptyDir)) else t s'

/-- Iterated application of `dirRun`, innermost first. -/
def gIter (src : List Entry) (codes : List String) : Nat → Dir → Dir
  | 0, d => d
  | m + 1, d => gIter src codes m (dirRun src codes d)

/-- Number of occurrences of a style name in the requested style list. -/
def occCount (s : String) : List String → Nat
  | [] => 0
  | a :: l => (if a = s then 1 else 0) + occCount s l

/-! ## Concrete demonstration inputs -/

def eSvg : Entry := { name := "26f8.svg", content := "svg-bytes", isFile := true }

def ePng : Entry := { name := "26f8 fe0f.png", content := "png-bytes", isFile := true }

def ePngPlain : Entry := { name := "26f8.png", content := "plain-png-bytes", isFile := true }

def whaleSvg : Entry := { name := "1f40b.svg", content := "whale-bytes", isFile := true }

def demoRoot : List (String × List Entry) := [("Color", [ePng, eSvg])]

def potatoEntry : Entry := { name := "potato_color.svg", content := "potato-bytes", isFile := true }

def potatoDir : EmojiDir :=
  { name := "Potato", meta := MetaFile.valid "1F954",
    variants := fun _ => none,
    rootStyles := fun s => if s = "Color" then some [potatoEntry] else none }

def defaultVar : VariantDir :=
  { styles := fun s => if s = "Color" then some [potatoEntry] else none }

def octopusDir : EmojiDir :=
  { name := "Octopus", meta := MetaFile.valid "1F419",
    variants := fun v => if v = "Default" then some defaultVar else none,
    rootStyles := fun _ => none }

def noMetaDir : EmojiDir :=
  { name := "Readme", meta := MetaFile.absent,
    variants := fun _ => none, rootStyles := fun _ => none }

def badMetaDir : EmojiDir :=
  { name := "Broken", meta := MetaFile.invalid,
    variants := fun _ => none, rootStyles := fun _ => none }

def emptyCodeDir : EmojiDir :=
  { name := "Blank", meta := MetaFile.valid "   ",
    variants := fun _ => none, rootStyles := fun _ => none }

/-! ## Order and sorting lemmas -/

theorem listLe_refl (a : List Char) : listLe a a = true := by
  induction a with
  | nil => rfl
  | cons c cs ih => simp [listLe, lt_irrefl, ih]

theorem listLe_cons_iff {a b : Char} {as bs : List Char} :
    listLe (a :: as) (b :: bs) = true ↔ a < b ∨ (a = b ∧ listLe as bs = true) := by
  rcases lt_trichotomy a b with h | h | h
  · simp [listLe, h]
  · subst h
    simp [listLe, lt_irrefl]
  · have h1 : ¬ a < b := lt_asymm h
    have h2 : a ≠ b := (ne_of_gt h)
    simp [listLe, h1, h, h2]

theorem listLe_total (a b : List Char) : listLe a b = true ∨ listLe b a = true := by
  induction a generalizing b with
  | nil => exact Or.inl rfl
  | cons c cs ih =>
    cases b with
    | nil => exact Or.inr rfl
    | cons d ds =>
      rcases lt_trichotomy c d with h | h | h
      · exact Or.inl (listLe_cons_iff.mpr (Or.inl h))
      · subst h
        rcases ih ds with h' | h'
        · exact Or.inl (listLe_cons_iff.mpr (Or.inr ⟨rfl, h'⟩))
        · exact Or.inr (listLe_cons_iff.mpr (Or.inr ⟨rfl, h'⟩))
      · exact Or.inr (listLe_cons_iff.mpr (Or.inl h))

theorem listLe_trans {a b c : List Char} (h1 : listLe a b = true) (h2 : listLe b c = true) :
    listLe a c = true := by
  induction a generalizing b c with
  | nil => rfl
  | cons x xs ih =>
    cases b with
    | nil => simp [listLe] at h1
    | cons y ys =>
      cases c with
      | nil => simp [listLe] at h2
      | cons z zs =>
        rcases listLe_cons_iff.mp h1 with hxy | ⟨hxy, hts⟩
        · rcases listLe_cons_iff.mp h2 with hyz | ⟨hyz, _⟩
          · exact listLe_cons_iff.mpr (Or.inl (lt_trans hxy hyz))
          · exact listLe_cons_iff.mpr (Or.inl (hyz ▸ hxy))
        · subst hxy
          rcases listLe_cons_iff.mp h2 with hyz | ⟨hyz, hts'⟩
          · exact listLe_cons_iff.mpr (Or.inl hyz)
          · exact listLe_cons_iff.mpr (Or.inr ⟨hyz, ih hts hts'⟩)

theorem strLe_refl (a : String) : strLe a a = true := listLe_refl _

theorem strLe_total (a b : String) : strLe a b = true ∨ strLe b a = true :=
  listLe_total _ _

theorem strLe_trans {a b c : String} (h1 : strLe a b = true) (h2 : strLe b c = true) :
    strLe a c = true := listLe_trans h1 h2

theorem mem_insertEntry {x f : Entry} {l : List Entry} :
    x ∈ insertEntry f l ↔ x = f ∨ x ∈ l := by
  induction l with
  | nil => simp [insertEntry]
  | cons g gs ih =>
    simp only [insertEntry]
    split
    · simp
    · simp [ih]
      tauto

theorem mem_sortEntries {x : Entry} {l : List Entry} :
    x ∈ sortEntries l ↔ x ∈ l := by
  induction l with
  | nil => simp [sortEntries]
  | cons f fs ih => simp [sortEntries, mem_insertEntry, ih]

theorem sortedE_insertEntry {f : Entry} {l : List Entry} (h : SortedE l) :
    SortedE (insertEntry f l) := by
  induction l with
  | nil => simp [insertEntry, SortedE]
  | cons g gs ih =>
    rcases List.pairwise_cons.mp h with ⟨hg, hgs⟩
    simp only [insertEntry]
    split
    · rename_i hle
      refine List.pairwise_cons.mpr ⟨?_, h⟩
      intro b hb
      rcases List.mem_cons.mp hb with rfl | hb
      · exact hle
      · exact strLe_trans hle (hg b hb)
    · rename_i hnle
      have hgf : strLe g.name f.name = true := by
        rcases strLe_total f.name g.name with h' | h'
        · exact absurd h' hnle
        · exact h'
      refine List.pairwise_cons.mpr ⟨?_, ih hgs⟩
      intro b hb
      rcases mem_insertEntry.mp hb with rfl | hb
      · exact hgf
      · exact hg b hb

theorem sortedE_sortEntries (l : List Entry) : SortedE (sortEntries l) := by
  induction l with
  | nil => simp [sortEntries, SortedE]
  | cons f fs ih => exact sortedE_insertEntry ih

theorem head_sortEntries_min {l : List Entry} {f : Entry}
    (h : (sortEntries l).head? = some f) :
    f ∈ l ∧ ∀ b ∈ l, strLe f.name b.name = true := by
  obtain ⟨rest, hs⟩ : ∃ rest, sortEntries l = f :: rest := by
    cases hsl : sortEntries l with
    | nil => rw [hsl] at h; simp at h
    | cons g r =>
      rw [hsl] at h
      simp only [List.head?_cons, Option.some.injEq] at h
      exact ⟨r, by rw [← h]⟩
  have hmem : f ∈ l := mem_sortEntries.mp (by rw [hs]; exact List.mem_cons_self f rest)
  refine ⟨hmem, ?_⟩
  intro b hb
  have hb' : b ∈ sortEntries l := mem_sortEntries.mpr hb
  rw [hs] at hb'
  rcases List.mem_cons.mp hb' with rfl | hb'
  · exact strLe_refl _
  · have hsort := sortedE_sortEntries l
    rw [hs] at hsort
    exact (List.pairwise_cons.mp hsort).1 b hb'

/-! ## Glob and suffix lemmas -/

theorem listPre_append_iff {a b n : List Char} :
    listPre (a ++ b) n = true ↔ listPre a n = true ∧ listPre b (n.drop a.length) = true := by
  induction a generalizing n with
  | nil => simp [listPre]
  | cons c cs ih =>
    cases n with
    | nil => simp [listPre]
    | cons m ms => simp [listPre, ih, and_assoc]

theorem listPre_mem {p n : List Char} (h : listPre p n = true) :
    ∀ c ∈ p, c ∈ n := by
  induction p generalizing n with
  | nil => simp
  | cons a as ih =>
    cases n with
    | nil => simp [listPre] at h
    | cons m ms =>
      simp only [listPre, Bool.and_eq_true, beq_iff_eq] at h
      intro c hc
      rcases List.mem_cons.mp hc with rfl | hc
      · exact h.1 ▸ List.mem_cons_self _ _
      · exact List.mem_cons_of_mem _ (ih h.2 c hc)

theorem listPre_self_append (a b : List Char) : listPre a (a ++ b) = true := by
  induction a with
  | nil => rfl
  | cons c cs ih => simp [listPre, ih]

theorem contains_of_mem {c : Char} {l : List Char} (h : c ∈ l) : l.contains c = true := by
  simpa [List.contains] using List.elem_iff.mpr h

theorem exactGlob_globMatch {code n : String} (h : exactGlob code n = true) :
    globMatch code n = true := by
  unfold exactGlob at h
  rcases listPre_append_iff.mp h with ⟨h1, h2⟩
  simp only [globMatch, Bool.and_eq_true]
  exact ⟨h1, contains_of_mem (listPre_mem h2 '.' (by simp))⟩

theorem fe0fGlob_globMatch {code n : String} (h : fe0fGlob code n = true) :
    globMatch code n = true := by
  unfold fe0fGlob at h
  rcases listPre_append_iff.mp h with ⟨h1, h2⟩
  simp only [globMatch, Bool.and_eq_true]
  exact ⟨h1, contains_of_mem (listPre_mem h2 '.' (by simp))⟩

theorem extFrom_shape {cs : List Char} : ∀ {s}, extFrom cs = some s → ∃ r, s = '.' :: r := by
  induction cs with
  | nil => intro s h; simp [extFrom] at h
  | cons c cs ih =>
    intro s h
    simp only [extFrom] at h
    split at h
    · rename_i s' he
      cases h
      exact ih he
    · split at h
      · rename_i hc
        cases h
        exact ⟨cs, by rw [show c = '.' from by simpa using hc]⟩
      · cases h

theorem pathSuffix_shape {name : String} (h : pathSuffix name ≠ "") :
    ∃ r, (pathSuffix name).toList = '.' :: r := by
  unfold pathSuffix at h ⊢
  cases he : extFrom name.toList with
  | none =>
    rw [he] at h
    simp at h
  | some s =>
    rw [he] at h
    dsimp only at h ⊢
    by_cases hc : s.length < name.toList.length && 1 < s.length
    · obtain ⟨r, hr⟩ := extFrom_shape he
      refine ⟨r, ?_⟩
      rw [if_pos hc, hr]
      rfl
    · rw [if_neg hc] at h
      exact absurd rfl h

theorem strToList_append (a b : String) : (a ++ b).toList = a.toList ++ b.toList := by
  simp [String.toList, String.data_append]

theorem strOfData_inj {a b : String} (h : a.data = b.data) : a = b := by
  cases a
  cases b
  exact congrArg String.mk h

theorem strAppend_left_cancel {code a b : String} (h : code ++ a = code ++ b) : a = b := by
  apply strOfData_inj
  have hd := congrArg String.data h
  rw [String.data_append, String.data_append] at hd
  exact List.append_cancel_left hd

theorem globMatch_code_append {code ext : String} (h : '.' ∈ ext.toList) :
    globMatch code (code ++ ext) = true := by
  simp only [globMatch, Bool.and_eq_true]
  constructor
  · rw [strToList_append]
    exact listPre_self_append _ _
  · rw [strToList_append, List.drop_left]
    exact contains_of_mem h

theorem globMatch_code_pathSuffix {code name : String} (h : pathSuffix name ≠ "") :
    globMatch code (code ++ pathSuffix name) = true := by
  obtain ⟨r, hr⟩ := pathSuffix_shape h
  exact globMatch_code_append (by rw [hr]; exact List.mem_cons_self _ _)

/-! ## Basic tree lemmas -/

theorem outUpdate_self (t : OutTree) (s : String) (f : Dir → Dir) :
    outUpdate t s f s = some (f ((t s).getD emptyDir)) := by
  simp [outUpdate]

theorem outUpdate_ne {s' s : String} (t : OutTree) (f : Dir → Dir) (h : s' ≠ s) :
    outUpdate t s f s' = t s' := by
  simp [outUpdate, h]

theorem outMkdir_self (t : OutTree) (s : String) :
    outMkdir t s s = some ((t s).getD emptyDir) := by
  simp [outMkdir]

theorem outMkdir_ne {s' s : String} (t : OutTree) (h : s' ≠ s) :
    outMkdir t s s' = t s' := by
  simp [outMkdir, h]

/-! ## Flattener extraction lemmas -/

theorem wAll_lookup (code : String) (files : List Entry) (d : Dir) (n : String) :
    wAll code files d n =
      match lastTgt code n files with
      | some c => some c
      | none => d n := by
  induction files generalizing d with
  | nil => simp [wAll, lastTgt]
  | cons f fs ih =>
    show wAll code fs (dirWrite d (code ++ pathSuffix f.name) f.content) n = _
    rw [ih]
    cases hl : lastTgt code n fs with
    | some c => simp [lastTgt, hl]
    | none =>
      simp only [lastTgt, hl]
      by_cases he : code ++ pathSuffix f.name = n
      · simp [dirWrite, he]
      · have he' : ¬ n = code ++ pathSuffix f.name := fun h => he h.symm
        simp [dirWrite, he, he']

theorem lastTgt_some {code n : String} {files : List Entry} {c : String}
    (h : lastTgt code n files = some c) :
    ∃ f ∈ files, code ++ pathSuffix f.name = n ∧ c = f.content := by
  induction files with
  | nil => simp [lastTgt] at h
  | cons f fs ih =>
    simp only [lastTgt] at h
    cases hl : lastTgt code n fs with
    | some c' =>
      rw [hl] at h
      obtain ⟨g, hg, hn, hc⟩ := ih (by rw [hl, ← h])
      exact ⟨g, List.mem_cons_of_mem _ hg, hn, hc⟩
    | none =>
      rw [hl] at h
      by_cases he : code ++ pathSuffix f.name = n
      · rw [if_pos he] at h
        exact ⟨f, List.mem_cons_self _ _, he, by injection h with h; exact h.symm⟩
      · rw [if_neg he] at h
        cases h

theorem lastTgt_isSome_of_mem {code n : String} {files : List Entry} {f : Entry}
    (hf : f ∈ files) (hn : code ++ pathSuffix f.name = n) :
    ∃ c, lastTgt code n files = some c := by
  induction files with
  | nil => cases hf
  | cons g gs ih =>
    simp only [lastTgt]
    cases hl : lastTgt code n gs with
    | some c => exact ⟨c, rfl⟩
    | none =>
      rcases List.mem_cons.mp hf with rfl | hf'
      · exact ⟨f.content, by rw [if_pos hn]⟩
      · obtain ⟨c, hc⟩ := ih hf'
        rw [hc] at hl
        cases hl

theorem cisLoop_tree_ne {sn code : String} {dry : Bool} {s' : String} (h : s' ≠ sn) :
    ∀ (files : List Entry) (st : FS), (cisLoop sn code dry files st).tree s' = st.tree s' := by
  intro files
  induction files with
  | nil => intro st; rfl
  | cons f fs ih =>
    intro st
    show (cisLoop sn code dry fs _).tree s' = _
    rw [ih]
    cases dry with
    | true => rfl
    | false =>
      exact outUpdate_ne st.tree (fun d => dirWrite d (code ++ pathSuffix f.name) f.content) h

theorem cisLoop_tree_self {sn code : String} :
    ∀ (files : List Entry) (st : FS) (d : Dir), st.tree sn = some d →
      (cisLoop sn code false files st).tree sn = some (wAll code files d) := by
  intro files
  induction files with
  | nil => intro st d h; simpa [cisLoop, wAll] using h
  | cons f fs ih =>
    intro st d h
    show (cisLoop sn code false fs _).tree sn = _
    have hstep :
        (outUpdate st.tree sn (fun d0 => dirWrite d0 (code ++ pathSuffix f.name) f.content)) sn =
          some (dirWrite d (code ++ pathSuffix f.name) f.content) := by
      rw [outUpdate_self, h]
      rfl
    rw [ih _ _ hstep]
    rfl

theorem cisLoop_dry_tree (sn code : String) :
    ∀ (files : List Entry) (st : FS), (cisLoop sn code true files st).tree = st.tree := by
  intro files
  induction files with
  | nil => intro st; rfl
  | cons f fs ih => intro st; exact ih _

theorem cis_tree_ne {sd : Option (List Entry)} {sn code : String} {dry : Bool}
    {s' : String} (h : s' ≠ sn) (st : FS) :
    (copy_in_style_dir sd sn code dry st).tree s' = st.tree s' := by
  cases sd with
  | none => rfl
  | some entries =>
    show (if (sortEntries entries).filter goodFile = [] then st else _).tree s' = _
    split
    · rfl
    · rw [cisLoop_tree_ne h]
      cases dry with
      | true => rfl
      | false => exact outMkdir_ne _ h

theorem cis_tree_self_write {entries : List Entry} {sn code : String} (st : FS)
    (hne : (sortEntries entries).filter goodFile ≠ []) :
    (copy_in_style_dir (some entries) sn code false st).tree sn =
      some (wAll code ((sortEntries entries).filter goodFile) ((st.tree sn).getD emptyDir)) := by
  show (if (sortEntries entries).filter goodFile = [] then st else _).tree sn = _
  rw [if_neg hne]
  exact cisLoop_tree_self _ _ _ (outMkdir_self _ _)

theorem cis_tree_trivial {sd : Option (List Entry)} {sn code : String} {dry : Bool} (st : FS)
    (h : sd = none ∨ ∃ entries, sd = some entries ∧ (sortEntries entries).filter goodFile = []) :
    copy_in_style_dir sd sn code dry st = st := by
  rcases h with rfl | ⟨entries, rfl, he⟩
  · rfl
  · show (if (sortEntries entries).filter goodFile = [] then st else _) = st
    rw [if_pos he]

theorem cis_dry_tree (sd : Option (List Entry)) (sn code : String) (st : FS) :
    (copy_in_style_dir sd sn code true st).tree = st.tree := by
  cases sd with
  | none => rfl
  | some entries =>
    show (if (sortEntries entries).filter goodFile = [] then st else _).tree = _
    split
    · rfl
    · exact cisLoop_dry_tree _ _ _ _

theorem cis_tree_self_congr {sd : Option (List Entry)} {sn code : String} {st1 st2 : FS}
    (h : st1.tree sn = st2.tree sn) :
    (copy_in_style_dir sd sn code false st1).tree sn =
      (copy_in_style_dir sd sn code false st2).tree sn := by
  cases sd with
  | none => exact h
  | some entries =>
    by_cases he : (sortEntries entries).filter goodFile = []
    · rw [cis_tree_trivial st1 (Or.inr ⟨entries, rfl, he⟩),
          cis_tree_trivial st2 (Or.inr ⟨entries, rfl, he⟩)]
      exact h
    · rw [cis_tree_self_write st1 he, cis_tree_self_write st2 he, h]

theorem flatFold_notouch {e : EmojiDir} {code : String} {dry : Bool} :
    ∀ (L : List String) (st : FS) {s : String}, s ∉ L →
      ((L.foldl (flatStep e code dry) st).tree s = st.tree s) := by
  intro L
  induction L with
  | nil => intro st s _; rfl
  | cons a L ih =>
    intro st s hs
    rw [List.foldl_cons]
    rw [ih _ (fun h => hs (List.mem_cons_of_mem _ h))]
    exact cis_tree_ne (fun h => hs (by rw [h]; exact List.mem_cons_self _ _)) st

theorem flatFold_split {e : EmojiDir} {code : String} {A B : List String} {s : String}
    (h1 : s ∉ A) (h2 : s ∉ B) (st : FS) :
    (((A ++ s :: B).foldl (flatStep e code false) st).tree s =
      (flatStep e code false st s).tree s) := by
  rw [List.foldl_append, List.foldl_cons]
  rw [flatFold_notouch B _ h2]
  exact cis_tree_self_congr (flatFold_notouch A st h1)

theorem ped_tree_style {e : EmojiDir} {raw : String} (hm : e.meta = MetaFile.valid raw)
    (hne : pyLower (pyStrip raw) ≠ "") {style : String}
    (hstyle : style ∈ STYLE_DIRS) (st : FS) :
    (process_emoji_dir e false st).tree style =
      (copy_in_style_dir (resolvedStyleDir e style) style (pyLower (pyStrip raw)) false st).tree style := by
  have hp : process_emoji_dir e false st = STYLE_DIRS.foldl (flatStep e (pyLower (pyStrip raw)) false) st := by
    unfold process_emoji_dir
    rw [hm]
    dsimp only
    rw [if_neg hne]
  rw [hp]
  have h4 : style = "Color" ∨ style = "Flat" ∨ style = "High Contrast" ∨ style = "3D" := by
    simpa [STYLE_DIRS] using hstyle
  rcases h4 with rfl | rfl | rfl | rfl
  · have hd : STYLE_DIRS = [] ++ "Color" :: ["Flat", "High Contrast", "3D"] := rfl
    rw [hd]
    exact flatFold_split (by decide) (by decide) st
  · have hd : STYLE_DIRS = ["Color"] ++ "Flat" :: ["High Contrast", "3D"] := rfl
    rw [hd]
    exact flatFold_split (by decide) (by decide) st
  · have hd : STYLE_DIRS = ["Color", "Flat"] ++ "High Contrast" :: ["3D"] := rfl
    rw [hd]
    exact flatFold_split (by decide) (by decide) st
  · have hd : STYLE_DIRS = ["Color", "Flat", "High Contrast"] ++ "3D" :: [] := rfl
    rw [hd]
    exact flatFold_split (by decide) (by decide) st

/-! ## Selector extraction lemmas -/

theorem processCode_tree_ne {src : List Entry} {style code : String} {dry : Bool}
    {s' : String} (h : s' ≠ style) (st : SelState) :
    (processCode src style code dry st).tree s' = st.tree s' := by
  unfold processCode
  cases selectPreferred code src with
  | none => rfl
  | some f =>
    cases dry with
    | true => rfl
    | false =>
      dsimp only
      rw [if_neg Bool.false_ne_true]
      dsimp only
      exact outUpdate_ne _ _ h

theorem processCode_tree_write {src : List Entry} {style code : String} {f : Entry}
    (hsel : selectPreferred code src = some f) (st : SelState) :
    (processCode src style code false st).tree style =
      some (dirWrite (dirEraseGlob code ((st.tree style).getD emptyDir))
        (code ++ pathSuffix f.name) f.content) := by
  unfold processCode
  rw [hsel]
  dsimp only
  rw [if_neg Bool.false_ne_true]
  dsimp only
  exact outUpdate_self _ _ _

theorem processCode_tree_self {src : List Entry} {style code : String} {d : Dir}
    (st : SelState) (h : st.tree style = some d) :
    (processCode src style code false st).tree style = some (applyCodeDir src code d) := by
  unfold processCode applyCodeDir
  cases hsel : selectPreferred code src with
  | none => exact h
  | some f =>
    dsimp only
    rw [if_neg Bool.false_ne_true]
    dsimp only
    rw [outUpdate_self, h]
    rfl

theorem processCode_dry_tree (src : List Entry) (style code : String) (st : SelState) :
    (processCode src style code true st).tree = st.tree := by
  unfold processCode
  cases selectPreferred code src with
  | none => rfl
  | some f => rfl

theorem runCodes_tree_ne {src : List Entry} {style : String} {dry : Bool} {s' : String}
    (h : s' ≠ style) :
    ∀ (codes : List String) (st : SelState),
      (runCodes src style codes dry st).tree s' = st.tree s' := by
  intro codes
  induction codes with
  | nil => intro st; rfl
  | cons c cs ih =>
    intro st
    show (runCodes src style cs dry _).tree s' = _
    rw [ih]
    exact processCode_tree_ne h st

theorem runCodes_tree_self {src : List Entry} {style : String} :
    ∀ (codes : List String) (st : SelState) (d : Dir), st.tree style = some d →
      (runCodes src style codes false st).tree style = some (dirRun src codes d) := by
  intro codes
  induction codes with
  | nil => intro st d h; simpa [runCodes, dirRun] using h
  | cons c cs ih =>
    intro st d h
    show (runCodes src style cs false _).tree style = _
    rw [ih _ _ (processCode_tree_self st h)]
    rfl

theorem runCodes_dry_tree (src : List Entry) (style : String) :
    ∀ (codes : List String) (st : SelState),
      (runCodes src style codes true st).tree = st.tree := by
  intro codes
  induction codes with
  | nil => intro st; rfl
  | cons c cs ih =>
    intro st
    show (runCodes src style cs true _).tree = _
    rw [ih, processCode_dry_tree]

theorem runStyles_cons (root : List (String × List Entry)) (a : String)
    (rest codes : List String) (dry : Bool) (st : SelState) :
    runStyles root (a :: rest) codes dry st =
      runStyles root rest codes dry
        (match lookupDir root a with
         | none => { st with log := st.log ++ [Msg.warnMissingStyle a], anyMissing := true }
         | some src => runCodes src a codes dry
             (if dry then st else { st with tree := outMkdir st.tree a })) := rfl

theorem runStyles_tree (root : List (String × List Entry)) (codes : List String) :
    ∀ (styles : List String) (st : SelState),
      (runStyles root styles codes false st).tree =
        styles.foldl (styleStep root codes) st.tree := by
  intro styles
  induction styles with
  | nil => intro st; rfl
  | cons a rest ih =>
    intro st
    rw [runStyles_cons, List.foldl_cons, ih]
    congr 1
    cases hl : lookupDir root a with
    | none =>
      unfold styleStep
      rw [hl]
    | some src =>
      unfold styleStep
      rw [hl]
      show (runCodes src a codes false { st with tree := outMkdir st.tree a }).tree = _
      funext s'
      by_cases hq : s' = a
      · subst hq
        have hr := @runCodes_tree_self src s' codes { st with tree := outMkdir st.tree s' }
          ((st.tree s').getD emptyDir) (outMkdir_self st.tree s')
        rw [hr]
        simp
      · rw [runCodes_tree_ne hq]
        show outMkdir st.tree a s' = _
        rw [outMkdir_ne _ hq]
        simp [hq]

theorem copy_matches_tree (root : List (String × List Entry)) (styles codes : List String)
    (t : OutTree) (log0 : List Msg) :
    (copy_matches root styles codes false t log0).tree =
      styles.foldl (styleStep root codes) t := by
  unfold copy_matches
  dsimp only
  split
  · exact runStyles_tree root codes styles _
  · exact runStyles_tree root codes styles _

/-! ## Pointwise directory-run lemmas -/

theorem applyCodeDir_point {src : List Entry} {code : String} {d1 d2 : Dir} {n : String}
    (h : d1 n = d2 n) : applyCodeDir src code d1 n = applyCodeDir src code d2 n := by
  unfold applyCodeDir
  cases selectPreferred code src with
  | none => exact h
  | some f =>
    dsimp only
    unfold dirWrite dirEraseGlob
    by_cases he : n = code ++ pathSuffix f.name
    · rw [if_pos he, if_pos he]
    · rw [if_neg he, if_neg he]
      by_cases hg : globMatch code n = true
      · rw [if_pos hg, if_pos hg]
      · rw [if_neg hg, if_neg hg]
        exact h

theorem dirRun_point {src : List Entry} {n : String} :
    ∀ (codes : List String) {d1 d2 : Dir}, d1 n = d2 n →
      dirRun src codes d1 n = dirRun src codes d2 n := by
  intro codes
  induction codes with
  | nil => intro d1 d2 h; exact h
  | cons c cs ih =>
    intro d1 d2 h
    exact ih (applyCodeDir_point h)

theorem applyCodeDir_notouch {src : List Entry} {code n : String}
    (h : touches src code n = false) (d : Dir) :
    applyCodeDir src code d n = d n := by
  unfold applyCodeDir
  unfold touches at h
  cases hsel : selectPreferred code src with
  | none => rfl
  | some f =>
    rw [hsel] at h
    simp only [Bool.or_eq_false_iff, decide_eq_false_iff_not] at h
    dsimp only
    unfold dirWrite dirEraseGlob
    rw [if_neg h.2, if_neg (by rw [h.1]; exact Bool.false_ne_true)]

theorem applyCodeDir_touch {src : List Entry} {code n : String}
    (h : touches src code n = true) (d1 d2 : Dir) :
    applyCodeDir src code d1 n = applyCodeDir src code d2 n := by
  unfold applyCodeDir
  unfold touches at h
  cases hsel : selectPreferred code src with
  | none => rw [hsel] at h; cases h
  | some f =>
    rw [hsel] at h
    dsimp only
    unfold dirWrite dirEraseGlob
    by_cases he : n = code ++ pathSuffix f.name
    · rw [if_pos he, if_pos he]
    · simp only [Bool.or_eq_true, decide_eq_true_eq] at h
      rcases h with hg | he'
      · rw [if_neg he, if_neg he, if_pos hg, if_pos hg]
      · exact absurd he' he

theorem dirRun_notouch {src : List Entry} {n : String} :
    ∀ (codes : List String), codes.all (fun c => !(touches src c n)) = true →
      ∀ (d : Dir), dirRun src codes d n = d n := by
  intro codes
  induction codes with
  | nil => intro _ d; rfl
  | cons c cs ih =>
    intro h d
    rw [List.all_cons, Bool.and_eq_true] at h
    show dirRun src cs (applyCodeDir src c d) n = d n
    rw [ih h.2]
    exact applyCodeDir_notouch (by simpa using h.1) d

theorem dirRun_determined {src : List Entry} {n : String} :
    ∀ (codes : List String), codes.any (fun c => touches src c n) = true →
      ∀ (d1 d2 : Dir), dirRun src codes d1 n = dirRun src codes d2 n := by
  intro codes
  induction codes with
  | nil => intro h; cases h
  | cons c cs ih =>
    intro h d1 d2
    show dirRun src cs (applyCodeDir src c d1) n = dirRun src cs (applyCodeDir src c d2) n
    by_cases hany : cs.any (fun c => touches src c n) = true
    · exact ih hany (applyCodeDir src c d1) (applyCodeDir src c d2)
    · have hall : cs.all (fun c => !(touches src c n)) = true := by
        rw [List.all_eq_true]
        intro x hx
        rw [Bool.not_eq_true']
        by_contra hcon
        rw [Bool.not_eq_false] at hcon
        exact hany (List.any_eq_true.mpr ⟨x, hx, hcon⟩)
      have htc : touches src c n = true := by
        rw [List.any_cons, Bool.or_eq_true] at h
        rcases h with h | h
        · exact h
        · exact absurd h hany
      rw [dirRun_notouch cs hall, dirRun_notouch cs hall]
      exact applyCodeDir_touch htc d1 d2

theorem dirRun_idem {src : List Entry} {codes : List String} (d : Dir) (n : String) :
    dirRun src codes (dirRun src codes d) n = dirRun src codes d n := by
  by_cases hany : codes.any (fun c => touches src c n) = true
  · exact dirRun_determined codes hany _ _
  · have hall : codes.all (fun c => !(touches src c n)) = true := by
      rw [List.all_eq_true]
      intro x hx
      rw [Bool.not_eq_true']
      by_contra hcon
      rw [Bool.not_eq_false] at hcon
      exact hany (List.any_eq_true.mpr ⟨x, hx, hcon⟩)
    rw [dirRun_notouch codes hall, dirRun_notouch codes hall]

theorem gIter_point {src : List Entry} {codes : List String} {n : String} :
    ∀ (m : Nat) {d1 d2 : Dir}, d1 n = d2 n →
      gIter src codes m d1 n = gIter src codes m d2 n := by
  intro m
  induction m with
  | zero => intro d1 d2 h; exact h
  | succ m ih =>
    intro d1 d2 h
    exact ih (dirRun_point codes h)

theorem gIter_collapse {src : List Entry} {codes : List String} :
    ∀ (m : Nat) (d : Dir) (n : String),
      gIter src codes (m + 1) d n = dirRun src codes d n := by
  intro m
  induction m with
  | zero => intro d n; rfl
  | succ m ih =>
    intro d n
    show gIter src codes (m + 1) (dirRun src codes d) n = _
    rw [ih]
    exact dirRun_idem d n

/-! ## Tree-fold characterization and idempotence -/

theorem gIter_succ (src : List Entry) (codes : List String) (m : Nat) (d : Dir) :
    gIter src codes (m + 1) d = gIter src codes m (dirRun src codes d) := rfl

theorem styleStep_at_ne {root : List (String × List Entry)} {codes : List String}
    {a s' : String} (h : a ≠ s') (t : OutTree) :
    styleStep root codes t a s' = t s' := by
  unfold styleStep
  cases lookupDir root a with
  | none => rfl
  | some src =>
    dsimp only
    rw [if_neg (fun hq => h hq.symm)]

theorem styleStep_at_none {root : List (String × List Entry)} {codes : List String}
    {a : String} (h : lookupDir root a = none) (t : OutTree) :
    styleStep root codes t a = t := by
  unfold styleStep
  rw [h]

theorem styleStep_at_some {root : List (String × List Entry)} {codes : List String}
    {a : String} {src : List Entry} (h : lookupDir root a = some src) (t : OutTree) :
    styleStep root codes t a a = some (dirRun src codes ((t a).getD emptyDir)) := by
  unfold styleStep
  rw [h]
  dsimp only
  rw [if_pos rfl]

theorem stepFold_char (root : List (String × List Entry)) (codes : List String) :
    ∀ (styles : List String) (t : OutTree) (s' : String),
      (styles.foldl (styleStep root codes) t) s' =
        match lookupDir root s' with
        | none => t s'
        | some src =>
          if 0 < occCount s' styles then
            some (gIter src codes (occCount s' styles) ((t s').getD emptyDir))
          else t s' := by
  intro styles
  induction styles with
  | nil =>
    intro t s'
    cases lookupDir root s' with
    | none => rfl
    | some src =>
      dsimp only
      rw [if_neg (by simp [occCount])]
      rfl
  | cons a rest ih =>
    intro t s'
    rw [List.foldl_cons, ih]
    cases hl : lookupDir root s' with
    | none =>
      dsimp only
      by_cases ha : a = s'
      · subst ha
        rw [styleStep_at_none hl]
      · rw [styleStep_at_ne ha]
    | some src =>
      dsimp only
      by_cases ha : a = s'
      · subst ha
        have hself := @styleStep_at_some root codes a src hl t
        have hocc : occCount a (a :: rest) = occCount a rest + 1 := by
          simp [occCount, Nat.add_comm]
        rw [hocc, if_pos (Nat.succ_pos _)]
        cases hm : occCount a rest with
        | zero =>
          rw [if_neg (by omega)]
          rw [hself]
          rfl
        | succ m =>
          rw [if_pos (Nat.succ_pos m)]
          rw [hself]
          dsimp only [Option.getD_some]
          rw [← gIter_succ]
      · rw [styleStep_at_ne ha]
        have hocc : occCount s' (a :: rest) = occCount s' rest := by
          simp [occCount, ha]
        rw [hocc]

theorem stepFold_idem (root : List (String × List Entry)) (codes : List String)
    (styles : List String) (t : OutTree) (s n : String) :
    ((styles.foldl (styleStep root codes) (styles.foldl (styleStep root codes) t)) s).isSome =
      ((styles.foldl (styleStep root codes) t) s).isSome ∧
    lookupFile (styles.foldl (styleStep root codes) (styles.foldl (styleStep root codes) t)) s n =
      lookupFile (styles.foldl (styleStep root codes) t) s n := by
  have h1 := stepFold_char root codes styles t s
  have h2 := stepFold_char root codes styles (styles.foldl (styleStep root codes) t) s
  cases hl : lookupDir root s with
  | none =>
    rw [hl] at h1 h2
    dsimp only at h1 h2
    exact ⟨congrArg Option.isSome h2, by unfold lookupFile; rw [h2]⟩
  | some src =>
    rw [hl] at h1 h2
    dsimp only at h1 h2
    by_cases hocc : 0 < occCount s styles
    · rw [if_pos hocc] at h1 h2
      obtain ⟨m, hm⟩ : ∃ m, occCount s styles = m + 1 := ⟨occCount s styles - 1, by omega⟩
      rw [hm] at h1 h2
      constructor
      · rw [h1, h2]
        rfl
      · unfold lookupFile
        rw [h2, h1]
        dsimp only [Option.getD_some]
        rw [gIter_collapse, gIter_collapse]
        rw [dirRun_point codes (gIter_collapse m ((t s).getD emptyDir) n)]
        rw [dirRun_idem]
    · rw [if_neg hocc] at h1 h2
      exact ⟨congrArg Option.isSome h2, by unfold lookupFile; rw [h2]⟩

/-! ## Selection characterization -/

theorem selectPreferred_none {code : String} {src : List Entry}
    (h : ∀ e ∈ src, globMatch code e.name = false) : selectPreferred code src = none := by
  have hf : src.filter (fun e => globMatch code e.name) = [] := by
    rw [List.filter_eq_nil_iff]
    intro e he
    simp [h e he]
  unfold selectPreferred
  rw [hf]
  rfl

theorem selectPreferred_choice {src : List Entry} {code : String}
    (hcand : ∃ e ∈ src, globMatch code e.name = true) :
    ∃ f, selectPreferred code src = some f ∧ f ∈ src ∧ globMatch code f.name = true ∧
      ((∃ g ∈ src, exactGlob code g.name = true) →
        exactGlob code f.name = true ∧
          ∀ g ∈ src, exactGlob code g.name = true → strLe f.name g.name = true) ∧
      ((∀ g ∈ src, exactGlob code g.name = false) →
        (∃ g ∈ src, fe0fGlob code g.name = true) →
        fe0fGlob code f.name = true ∧
          ∀ g ∈ src, fe0fGlob code g.name = true → strLe f.name g.name = true) ∧
      ((∀ g ∈ src, exactGlob code g.name = false) →
        (∀ g ∈ src, fe0fGlob code g.name = false) →
        ∀ g ∈ src, globMatch code g.name = true → strLe f.name g.name = true) := by
  obtain ⟨e, he, hge⟩ := hcand
  have hme : e ∈ sortEntries (src.filter (fun x => globMatch code x.name)) :=
    mem_sortEntries.mpr (List.mem_filter.mpr ⟨he, hge⟩)
  cases hc : sortEntries (src.filter (fun x => globMatch code x.name)) with
  | nil => rw [hc] at hme; cases hme
  | cons c0 cs =>
    cases hex : (sortEntries (src.filter (fun x => exactGlob code x.name))).head? with
    | some f =>
      have hsel : selectPreferred code src = some f := by
        simp only [selectPreferred, hc, hex]
      obtain ⟨hfmem, hfmin⟩ := head_sortEntries_min hex
      have hfs : f ∈ src := (List.mem_filter.mp hfmem).1
      have hfx : exactGlob code f.name = true := by
        simpa using (List.mem_filter.mp hfmem).2
      refine ⟨f, hsel, hfs, exactGlob_globMatch hfx, ?_, ?_, ?_⟩
      · intro _
        refine ⟨hfx, ?_⟩
        intro g hg hgx
        exact hfmin g (List.mem_filter.mpr ⟨hg, by simp [hgx]⟩)
      · intro hall _
        exact absurd hfx (by rw [hall f hfs]; exact Bool.false_ne_true)
      · intro hall _
        exact absurd hfx (by rw [hall f hfs]; exact Bool.false_ne_true)
    | none =>
      have hexnil : sortEntries (src.filter (fun x => exactGlob code x.name)) = [] :=
        List.head?_eq_none_iff.mp hex
      have hallx : ∀ g ∈ src, exactGlob code g.name = false := by
        intro g hg
        by_contra hcon
        rw [Bool.not_eq_false] at hcon
        have : g ∈ sortEntries (src.filter (fun x => exactGlob code x.name)) :=
          mem_sortEntries.mpr (List.mem_filter.mpr ⟨hg, by simp [hcon]⟩)
        rw [hexnil] at this
        cases this
      cases hf0 : (sortEntries (src.filter (fun x => fe0fGlob code x.name))).head? with
      | some f =>
        have hsel : selectPreferred code src = some f := by
          simp only [selectPreferred, hc, hex, hf0]
        obtain ⟨hfmem, hfmin⟩ := head_sortEntries_min hf0
        have hfs : f ∈ src := (List.mem_filter.mp hfmem).1
        have hff : fe0fGlob code f.name = true := by
          simpa using (List.mem_filter.mp hfmem).2
        refine ⟨f, hsel, hfs, fe0fGlob_globMatch hff, ?_, ?_, ?_⟩
        · intro ⟨g, hg, hgx⟩
          exact absurd hgx (by rw [hallx g hg]; exact Bool.false_ne_true)
        · intro _ _
          refine ⟨hff, ?_⟩
          intro g hg hgf
          exact hfmin g (List.mem_filter.mpr ⟨hg, by simp [hgf]⟩)
        · intro _ hall
          exact absurd hff (by rw [hall f hfs]; exact Bool.false_ne_true)
      | none =>
        have hf0nil : sortEntries (src.filter (fun x => fe0fGlob code x.name)) = [] :=
          List.head?_eq_none_iff.mp hf0
        have hallf : ∀ g ∈ src, fe0fGlob code g.name = false := by
          intro g hg
          by_contra hcon
          rw [Bool.not_eq_false] at hcon
          have : g ∈ sortEntries (src.filter (fun x => fe0fGlob code x.name)) :=
            mem_sortEntries.mpr (List.mem_filter.mpr ⟨hg, by simp [hcon]⟩)
          rw [hf0nil] at this
          cases this
        have hsel : selectPreferred code src = some c0 := by
          simp only [selectPreferred, hc, hex, hf0]
        obtain ⟨hcmem, hcmin⟩ := head_sortEntries_min (l := src.filter (fun x => globMatch code x.name))
          (by rw [hc]; rfl)
        have hcs : c0 ∈ src := (List.mem_filter.mp hcmem).1
        have hcg : globMatch code c0.name = true := by
          simpa using (List.mem_filter.mp hcmem).2
        refine ⟨c0, hsel, hcs, hcg, ?_, ?_, ?_⟩
        · intro ⟨g, hg, hgx⟩
          exact absurd hgx (by rw [hallx g hg]; exact Bool.false_ne_true)
        · intro _ ⟨g, hg, hgf⟩
          exact absurd hgf (by rw [hallf g hg]; exact Bool.false_ne_true)
        · intro _ _ g hg hgg
          exact hcmin g (List.mem_filter.mpr ⟨hg, by simp [hgg]⟩)

/-! ## Dry-run lemmas -/

theorem runStyles_dry_tree (root : List (String × List Entry)) (codes : List String) :
    ∀ (styles : List String) (st : SelState),
      (runStyles root styles codes true st).tree = st.tree := by
  intro styles
  induction styles with
  | nil => intro st; rfl
  | cons a rest ih =>
    intro st
    rw [runStyles_cons, ih]
    cases hl : lookupDir root a with
    | none => rfl
    | some src =>
      dsimp only
      rw [runCodes_dry_tree]
      rw [if_pos rfl]

theorem copy_matches_dry_tree (root : List (String × List Entry)) (styles codes : List String)
    (t : OutTree) (log0 : List Msg) :
    (copy_matches root styles codes true t log0).tree = t := by
  unfold copy_matches
  dsimp only
  split
  · exact runStyles_dry_tree root codes styles _
  · exact runStyles_dry_tree root codes styles _

theorem flatFold_dry_tree {e : EmojiDir} {code : String} :
    ∀ (L : List String) (st : FS), ((L.foldl (flatStep e code true) st).tree = st.tree) := by
  intro L
  induction L with
  | nil => intro st; rfl
  | cons a L ih =>
    intro st
    rw [List.foldl_cons, ih]
    exact cis_dry_tree _ _ _ _

theorem ped_dry_tree (e : EmojiDir) (st : FS) :
    (process_emoji_dir e true st).tree = st.tree := by
  unfold process_emoji_dir
  cases e.meta with
  | absent => rfl
  | invalid => rfl
  | valid raw =>
    dsimp only
    split
    · rfl
    · exact flatFold_dry_tree STYLE_DIRS st

theorem processAll_dry_tree : ∀ (dirs : List EmojiDir) (st : FS),
    (processAll dirs true st).tree = st.tree := by
  intro dirs
  induction dirs with
  | nil => intro st; rfl
  | cons e rest ih =>
    intro st
    show (processAll rest true _).tree = _
    rw [ih, ped_dry_tree]

theorem rename_main_dry_tree (rootExists : Bool) (dirs : List EmojiDir) (t : OutTree) :
    (rename_main rootExists dirs true t).1.tree = t := by
  unfold rename_main
  cases rootExists with
  | false => rfl
  | true =>
    dsimp only
    rw [if_neg (by decide : ¬ ((true : Bool) = false))]
    dsimp only
    rw [if_pos rfl]
    exact processAll_dry_tree dirs _

/-! ## Log lemmas -/

theorem processCode_log_mem {m : Msg} {src : List Entry} {style code : String} {dry : Bool}
    {st : SelState} (h : m ∈ st.log) : m ∈ (processCode src style code dry st).log := by
  unfold processCode
  cases selectPreferred code src with
  | none => simp [h]
  | some f =>
    cases dry with
    | true => simp [h]
    | false => simp [h]

theorem processCode_missing_mono {src : List Entry} {style code : String} {dry : Bool}
    {st : SelState} (h : st.anyMissing = true) :
    (processCode src style code dry st).anyMissing = true := by
  unfold processCode
  cases selectPreferred code src with
  | none => rfl
  | some f =>
    cases dry with
    | true => exact h
    | false => exact h

theorem processCode_dry_no_copy {a b c : String} {src : List Entry} {style code : String}
    {st : SelState} (h : Msg.copy a b c ∈ (processCode src style code true st).log) :
    Msg.copy a b c ∈ st.log := by
  unfold processCode at h
  cases hsel : selectPreferred code src with
  | none =>
    rw [hsel] at h
    have h' : Msg.copy a b c ∈ st.log ++ [Msg.warnNotFound style code] := h
    rw [List.mem_append] at h'
    rcases h' with h' | h'
    · exact h'
    · exact absurd h' (by simp)
  | some f =>
    rw [hsel] at h
    have h' : Msg.copy a b c ∈ st.log ++ [Msg.dryRunRemovals style code,
        Msg.dryRunCopy style f.name (code ++ pathSuffix f.name)] := h
    rw [List.mem_append] at h'
    rcases h' with h' | h'
    · exact h'
    · exact absurd h' (by simp)

theorem processCode_emits_copy {src : List Entry} {code : String} {f : Entry}
    (hsel : selectPreferred code src = some f) (style : String) (st : SelState) :
    Msg.copy style f.name (code ++ pathSuffix f.name) ∈
      (processCode src style code false st).log := by
  unfold processCode
  rw [hsel]
  simp

theorem processCode_emits_dryCopy {src : List Entry} {code : String} {f : Entry}
    (hsel : selectPreferred code src = some f) (style : String) (st : SelState) :
    Msg.dryRunCopy style f.name (code ++ pathSuffix f.name) ∈
      (processCode src style code true st).log := by
  unfold processCode
  rw [hsel]
  simp

theorem processCode_emits_warn {src : List Entry} {code : String}
    (hsel : selectPreferred code src = none) (style : String) (dry : Bool) (st : SelState) :
    Msg.warnNotFound style code ∈ (processCode src style code dry st).log ∧
      (processCode src style code dry st).anyMissing = true := by
  unfold processCode
  rw [hsel]
  simp

theorem runCodes_log_mem {m : Msg} {src : List Entry} {style : String} {dry : Bool} :
    ∀ (codes : List String) (st : SelState), m ∈ st.log →
      m ∈ (runCodes src style codes dry st).log := by
  intro codes
  induction codes with
  | nil => intro st h; exact h
  | cons c cs ih =>
    intro st h
    exact ih _ (processCode_log_mem h)

theorem runCodes_missing_mono {src : List Entry} {style : String} {dry : Bool} :
    ∀ (codes : List String) (st : SelState), st.anyMissing = true →
      (runCodes src style codes dry st).anyMissing = true := by
  intro codes
  induction codes with
  | nil => intro st h; exact h
  | cons c cs ih =>
    intro st h
    exact ih _ (processCode_missing_mono h)

theorem runCodes_dry_no_copy {a b c : String} {src : List Entry} {style : String} :
    ∀ (codes : List String) (st : SelState),
      Msg.copy a b c ∈ (runCodes src style codes true st).log → Msg.copy a b c ∈ st.log := by
  intro codes
  induction codes with
  | nil => intro st h; exact h
  | cons q qs ih =>
    intro st h
    exact processCode_dry_no_copy (ih _ h)

theorem runCodes_emits_copy {src : List Entry} {style code : String} {f : Entry}
    (hsel : selectPreferred code src = some f) :
    ∀ (codes : List String) (st : SelState), code ∈ codes →
      Msg.copy style f.name (code ++ pathSuffix f.name) ∈
        (runCodes src style codes false st).log := by
  intro codes
  induction codes with
  | nil => intro st h; cases h
  | cons q qs ih =>
    intro st h
    rcases List.mem_cons.mp h with rfl | h
    · exact runCodes_log_mem qs _ (processCode_emits_copy hsel style st)
    · exact ih _ h

theorem runCodes_emits_dryCopy {src : List Entry} {style code : String} {f : Entry}
    (hsel : selectPreferred code src = some f) :
    ∀ (codes : List String) (st : SelState), code ∈ codes →
      Msg.dryRunCopy style f.name (code ++ pathSuffix f.name) ∈
        (runCodes src style codes true st).log := by
  intro codes
  induction codes with
  | nil => intro st h; cases h
  | cons q qs ih =>
    intro st h
    rcases List.mem_cons.mp h with rfl | h
    · exact runCodes_log_mem qs _ (processCode_emits_dryCopy hsel style st)
    · exact ih _ h

theorem runCodes_emits_warn {src : List Entry} {style code : String} {dry : Bool}
    (hsel : selectPreferred code src = none) :
    ∀ (codes : List String) (st : SelState), code ∈ codes →
      Msg.warnNotFound style code ∈ (runCodes src style codes dry st).log ∧
        (runCodes src style codes dry st).anyMissing = true := by
  intro codes
  induction codes with
  | nil => intro st h; cases h
  | cons q qs ih =>
    intro st h
    rcases List.mem_cons.mp h with rfl | h
    · constructor
      · exact runCodes_log_mem qs _ (processCode_emits_warn hsel style dry st).1
      · exact runCodes_missing_mono qs _ (processCode_emits_warn hsel style dry st).2
    · exact ih _ h

theorem runStyles_log_mem {m : Msg} {root : List (String × List Entry)}
    {codes : List String} {dry : Bool} :
    ∀ (styles : List String) (st : SelState), m ∈ st.log →
      m ∈ (runStyles root styles codes dry st).log := by
  intro styles
  induction styles with
  | nil => intro st h; exact h
  | cons a rest ih =>
    intro st h
    rw [runStyles_cons]
    apply ih
    cases hl : lookupDir root a with
    | none => simpa using Or.inl h
    | some src =>
      dsimp only
      apply runCodes_log_mem
      cases dry with
      | true => simpa using h
      | false => simpa using h

theorem runStyles_missing_mono {root : List (String × List Entry)}
    {codes : List String} {dry : Bool} :
    ∀ (styles : List String) (st : SelState), st.anyMissing = true →
      (runStyles root styles codes dry st).anyMissing = true := by
  intro styles
  induction styles with
  | nil => intro st h; exact h
  | cons a rest ih =>
    intro st h
    rw [runStyles_cons]
    apply ih
    cases hl : lookupDir root a with
    | none => rfl
    | some src =>
      dsimp only
      apply runCodes_missing_mono
      cases dry with
      | true => simpa using h
      | false => simpa using h

theorem runStyles_dry_no_copy {a b c : String} {root : List (String × List Entry)}
    {codes : List String} :
    ∀ (styles : List String) (st : SelState),
      Msg.copy a b c ∈ (runStyles root styles codes true st).log →
        Msg.copy a b c ∈ st.log := by
  intro styles
  induction styles with
  | nil => intro st h; exact h
  | cons q rest ih =>
    intro st h
    rw [runStyles_cons] at h
    have h' := ih _ h
    cases hl : lookupDir root q with
    | none =>
      rw [hl] at h'
      have h'' : Msg.copy a b c ∈ st.log ++ [Msg.warnMissingStyle q] := h'
      rw [List.mem_append] at h''
      rcases h'' with h'' | h''
      · exact h''
      · exact absurd h'' (by simp)
    | some src =>
      rw [hl] at h'
      have h'' := runCodes_dry_no_copy codes _ h'
      rw [if_pos rfl] at h''
      exact h''

theorem runStyles_emits_copy {root : List (String × List Entry)} {codes : List String}
    {style code : String} {src : List Entry} {f : Entry}
    (hl : lookupDir root style = some src) (hsel : selectPreferred code src = some f)
    (hcode : code ∈ codes) :
    ∀ (styles : List String) (st : SelState), style ∈ styles →
      Msg.copy style f.name (code ++ pathSuffix f.name) ∈
        (runStyles root styles codes false st).log := by
  intro styles
  induction styles with
  | nil => intro st h; cases h
  | cons q rest ih =>
    intro st h
    rw [runStyles_cons]
    rcases List.mem_cons.mp h with rfl | h
    · rw [hl]
      dsimp only
      apply runStyles_log_mem
      apply runCodes_emits_copy hsel codes _ hcode
    · exact ih _ h

theorem runStyles_emits_dryCopy {root : List (String × List Entry)} {codes : List String}
    {style code : String} {src : List Entry} {f : Entry}
    (hl : lookupDir root style = some src) (hsel : selectPreferred code src = some f)
    (hcode : code ∈ codes) :
    ∀ (styles : List String) (st : SelState), style ∈ styles →
      Msg.dryRunCopy style f.name (code ++ pathSuffix f.name) ∈
        (runStyles root styles codes true st).log := by
  intro styles
  induction styles with
  | nil => intro st h; cases h
  | cons q rest ih =>
    intro st h
    rw [runStyles_cons]
    rcases List.mem_cons.mp h with rfl | h
    · rw [hl]
      dsimp only
      apply runStyles_log_mem
      apply runCodes_emits_dryCopy hsel codes _ hcode
    · exact ih _ h

theorem runStyles_emits_warn {root : List (String × List Entry)} {codes : List String}
    {style code : String} {src : List Entry} {dry : Bool}
    (hl : lookupDir root style = some src) (hsel : selectPreferred code src = none)
    (hcode : code ∈ codes) :
    ∀ (styles : List String) (st : SelState), style ∈ styles →
      Msg.warnNotFound style code ∈ (runStyles root styles codes dry st).log ∧
        (runStyles root styles codes dry st).anyMissing = true := by
  intro styles
  induction styles with
  | nil => intro st h; cases h
  | cons q rest ih =>
    intro st h
    rw [runStyles_cons]
    rcases List.mem_cons.mp h with rfl | h
    · rw [hl]
      dsimp only
      constructor
      · apply runStyles_log_mem
        exact (runCodes_emits_warn hsel codes _ hcode).1
      · apply runStyles_missing_mono
        exact (runCodes_emits_warn hsel codes _ hcode).2
    · exact ih _ h

theorem copy_matches_log_mem {m : Msg} {root : List (String × List Entry)}
    {styles codes : List String} {dry : Bool} {t : OutTree} {log0 : List Msg}
    (h : m ∈ (runStyles root styles codes dry { tree := t, log := log0, anyMissing := false }).log) :
    m ∈ (copy_matches root styles codes dry t log0).log := by
  unfold copy_matches
  dsimp only
  split
  · simpa using Or.inl h
  · exact h

theorem copy_matches_emits_copy {root : List (String × List Entry)} {styles codes : List String}
    {style code : String} {src : List Entry} {f : Entry} {t : OutTree} {log0 : List Msg}
    (hl : lookupDir root style = some src) (hsel : selectPreferred code src = some f)
    (hstyle : style ∈ styles) (hcode : code ∈ codes) :
    Msg.copy style f.name (code ++ pathSuffix f.name) ∈
      (copy_matches root styles codes false t log0).log :=
  copy_matches_log_mem (runStyles_emits_copy hl hsel hcode styles _ hstyle)

theorem copy_matches_emits_dryCopy {root : List (String × List Entry)}
    {styles codes : List String} {style code : String} {src : List Entry} {f : Entry}
    {t : OutTree} {log0 : List Msg}
    (hl : lookupDir root style = some src) (hsel : selectPreferred code src = some f)
    (hstyle : style ∈ styles) (hcode : code ∈ codes) :
    Msg.dryRunCopy style f.name (code ++ pathSuffix f.name) ∈
      (copy_matches root styles codes true t log0).log :=
  copy_matches_log_mem (runStyles_emits_dryCopy hl hsel hcode styles _ hstyle)

theorem copy_matches_emits_warn {root : List (String × List Entry)}
    {styles codes : List String} {style code : String} {src : List Entry} {dry : Bool}
    {t : OutTree} {log0 : List Msg}
    (hl : lookupDir root style = some src) (hsel : selectPreferred code src = none)
    (hstyle : style ∈ styles) (hcode : code ∈ codes) :
    Msg.warnNotFound style code ∈ (copy_matches root styles codes dry t log0).log ∧
      Msg.summaryMissing ∈ (copy_matches root styles codes dry t log0).log := by
  have hw := @runStyles_emits_warn root codes style code src dry hl hsel hcode styles
    { tree := t, log := log0, anyMissing := false }
  have hw1 := (hw hstyle).1
  have hw2 := (hw hstyle).2
  constructor
  · exact copy_matches_log_mem hw1
  · unfold copy_matches
    dsimp only
    rw [if_pos hw2]
    simp

theorem copy_matches_dry_no_copy {a b c : String} {root : List (String × List Entry)}
    {styles codes : List String} {t : OutTree} {log0 : List Msg}
    (h : Msg.copy a b c ∈ (copy_matches root styles codes true t log0).log) :
    Msg.copy a b c ∈ log0 := by
  unfold copy_matches at h
  dsimp only at h
  have hbase : Msg.copy a b c ∈
      (runStyles root styles codes true { tree := t, log := log0, anyMissing := false }).log → Msg.copy a b c ∈ log0 := by
    intro hin
    exact runStyles_dry_no_copy styles _ hin
  split at h
  · have h' := List.mem_append.mp h
    rcases h' with h' | h'
    · exact hbase h'
    · exact absurd h' (by simp)
  · exact hbase h

/-! ## Flattener log lemmas -/

theorem cisLoop_dry_no_copy {a b c : String} {sn code : String} :
    ∀ (files : List Entry) (st : FS),
      Msg.copy a b c ∈ (cisLoop sn code true files st).log → Msg.copy a b c ∈ st.log := by
  intro files
  induction files with
  | nil => intro st h; exact h
  | cons f fs ih =>
    intro st h
    have h' := ih _ h
    have h'' : Msg.copy a b c ∈ st.log ++ [Msg.dryRunCopy sn f.name (code ++ pathSuffix f.name)] := h'
    rw [List.mem_append] at h''
    rcases h'' with h'' | h''
    · exact h''
    · exact absurd h'' (by simp)

theorem cis_dry_no_copy {a b c : String} {sd : Option (List Entry)} {sn code : String}
    {st : FS} (h : Msg.copy a b c ∈ (copy_in_style_dir sd sn code true st).log) :
    Msg.copy a b c ∈ st.log := by
  cases sd with
  | none => exact h
  | some entries =>
    unfold copy_in_style_dir at h
    dsimp only at h
    split at h
    · exact h
    · exact cisLoop_dry_no_copy _ _ h

theorem flatFold_dry_no_copy {a b c : String} {e : EmojiDir} {code : String} :
    ∀ (L : List String) (st : FS),
      Msg.copy a b c ∈ ((L.foldl (flatStep e code true) st).log) → Msg.copy a b c ∈ st.log := by
  intro L
  induction L with
  | nil => intro st h; exact h
  | cons q L ih =>
    intro st h
    exact cis_dry_no_copy (ih _ h)

theorem ped_dry_no_copy {a b c : String} {e : EmojiDir} {st : FS}
    (h : Msg.copy a b c ∈ (process_emoji_dir e true st).log) : Msg.copy a b c ∈ st.log := by
  unfold process_emoji_dir at h
  cases hm : e.meta with
  | absent => rw [hm] at h; exact h
  | invalid =>
    rw [hm] at h
    have h' : Msg.copy a b c ∈ st.log ++ [Msg.warnFailedRead e.name] := h
    rw [List.mem_append] at h'
    rcases h' with h' | h'
    · exact h'
    · exact absurd h' (by simp)
  | valid raw =>
    rw [hm] at h
    dsimp only at h
    split at h
    · have h' : Msg.copy a b c ∈ st.log ++ [Msg.warnMissingUnicode e.name] := h
      rw [List.mem_append] at h'
      rcases h' with h' | h'
      · exact h'
      · exact absurd h' (by simp)
    · exact flatFold_dry_no_copy STYLE_DIRS _ h

theorem processAll_dry_no_copy {a b c : String} :
    ∀ (dirs : List EmojiDir) (st : FS),
      Msg.copy a b c ∈ (processAll dirs true st).log → Msg.copy a b c ∈ st.log := by
  intro dirs
  induction dirs with
  | nil => intro st h; exact h
  | cons e rest ih =>
    intro st h
    exact ped_dry_no_copy (ih _ h)

theorem rename_main_dry_no_copy {a b c : String} {rootExists : Bool} {dirs : List EmojiDir}
    {t : OutTree} (h : Msg.copy a b c ∈ (rename_main rootExists dirs true t).1.log) : False := by
  unfold rename_main at h
  cases rootExists with
  | false => exact absurd h (by simp)
  | true =>
    rw [if_neg (by decide : ¬ ((true : Bool) = false))] at h
    dsimp only at h
    rw [if_pos rfl] at h
    have h' := List.mem_append.mp h
    rcases h' with h' | h'
    · have h'' := processAll_dry_no_copy dirs _ h'
      exact absurd h'' (by simp)
    · exact absurd h' (by simp)

/-! ## Prefix-code lemmas -/

theorem mem_of_contains {c : Char} {l : List Char} (h : l.contains c = true) : c ∈ l :=
  List.elem_iff.mp (by simpa [List.contains] using h)

theorem mem_drop_of_le {c : Char} {l : List Char} {k m : Nat} (hkm : k ≤ m)
    (h : c ∈ l.drop m) : c ∈ l.drop k := by
  have hd : l.drop m = (l.drop k).drop (m - k) := by
    rw [List.drop_drop]
    congr 1
    omega
  rw [hd] at h
  exact List.mem_of_mem_drop h

theorem globMatch_mono {code codeB n : String} {s : List Char}
    (hpre : codeB.toList = code.toList ++ s) (h : globMatch codeB n = true) :
    globMatch code n = true := by
  unfold globMatch at h ⊢
  rw [Bool.and_eq_true] at h
  rcases h with ⟨h1, h2⟩
  rw [hpre] at h1
  rw [Bool.and_eq_true]
  constructor
  · exact (listPre_append_iff.mp h1).1
  · have hlen : code.toList.length ≤ codeB.toList.length := by
      rw [hpre, List.length_append]
      omega
    exact contains_of_mem (mem_drop_of_le hlen (mem_of_contains h2))

theorem globMatch_prefix_ext {code codeB ext : String} {s : List Char}
    (hpre : codeB.toList = code.toList ++ s) (hdot : '.' ∈ ext.toList) :
    globMatch code (codeB ++ ext) = true := by
  unfold globMatch
  rw [Bool.and_eq_true]
  have htl : (codeB ++ ext).toList = code.toList ++ (s ++ ext.toList) := by
    rw [strToList_append, hpre, List.append_assoc]
  constructor
  · rw [htl]
    exact listPre_self_append _ _
  · rw [htl, List.drop_left]
    exact contains_of_mem (List.mem_append.mpr (Or.inr hdot))

/-! # Claims -/

/-- C1: For every style directory and requested code with at least one
matching file, the Selector chooses exactly one source file, selected in
this order: an exact code-dot match first, else a code-space-fe0f-dot
match, else the first matching file in sorted filename order; in
particular, given source files 26f8.svg and "26f8 fe0f.png", the chosen
file is 26f8.svg. -/
theorem C1_selector_preference {src : List Entry} {code : String}
    (hcand : ∃ e ∈ src, globMatch code e.name = true) :
    (∃ f, selectPreferred code src = some f ∧ f ∈ src ∧ globMatch code f.name = true ∧
      ((∃ g ∈ src, exactGlob code g.name = true) →
        exactGlob code f.name = true ∧
          ∀ g ∈ src, exactGlob code g.name = true → strLe f.name g.name = true) ∧
      ((∀ g ∈ src, exactGlob code g.name = false) →
        (∃ g ∈ src, fe0fGlob code g.name = true) →
        fe0fGlob code f.name = true ∧
          ∀ g ∈ src, fe0fGlob code g.name = true → strLe f.name g.name = true) ∧
      ((∀ g ∈ src, exactGlob code g.name = false) →
        (∀ g ∈ src, fe0fGlob code g.name = false) →
        ∀ g ∈ src, globMatch code g.name = true → strLe f.name g.name = true)) ∧
    selectPreferred "26f8" [ePng, eSvg] = some eSvg :=
  ⟨selectPreferred_choice hcand, by decide⟩

/-- C1 witness: at the concrete scenario of the claim, the preference
theorem applies and the chosen file is 26f8.svg. -/
theorem C1_selector_preference_witness :
    selectPreferred "26f8" [ePng, eSvg] = some eSvg :=
  (@C1_selector_preference [ePng, eSvg] "26f8" ⟨eSvg, by decide, by decide⟩).2

/-- C2: For every emoji source directory whose metadata yields a nonempty
code and every recognized style subdirectory (after skin-tone resolution)
with at least one non-hidden regular file, the Flattener produces exactly
one destination file per distinct source-file extension, named by the
lowercased code plus the source file's own extension, and no other entry
of that destination style directory changes (in particular hidden and
system files contribute nothing). -/
theorem C2_flattener_per_extension {e : EmojiDir} {raw code style : String}
    {entries : List Entry} (st : FS)
    (hm : e.meta = MetaFile.valid raw)
    (hcode : pyLower (pyStrip raw) = code)
    (hne : code ≠ "")
    (hstyle : style ∈ STYLE_DIRS)
    (hsrc : resolvedStyleDir e style = some entries)
    (hfiles : (sortEntries entries).filter goodFile ≠ []) :
    (∀ f ∈ (sortEntries entries).filter goodFile,
      ∃ c, lookupFile (process_emoji_dir e false st).tree style
        (code ++ pathSuffix f.name) = some c) ∧
    (∀ n, lookupFile (process_emoji_dir e false st).tree style n ≠
        lookupFile st.tree style n →
      ∃ f ∈ (sortEntries entries).filter goodFile, n = code ++ pathSuffix f.name) := by
  subst hcode
  have hchar := ped_tree_style hm hne hstyle st
  rw [hsrc] at hchar
  rw [cis_tree_self_write st hfiles] at hchar
  have hlook : ∀ n, lookupFile (process_emoji_dir e false st).tree style n =
      wAll (pyLower (pyStrip raw)) ((sortEntries entries).filter goodFile)
        ((st.tree style).getD emptyDir) n := by
    intro n
    unfold lookupFile
    rw [hchar]
  have hst : ∀ n, lookupFile st.tree style n = ((st.tree style).getD emptyDir) n := by
    intro n
    unfold lookupFile
    cases st.tree style with
    | none => rfl
    | some d => rfl
  constructor
  · intro f hf
    rw [hlook, wAll_lookup]
    obtain ⟨c, hc⟩ := lastTgt_isSome_of_mem hf rfl
    rw [hc]
    exact ⟨c, rfl⟩
  · intro n hneq
    rw [hlook, hst, wAll_lookup] at hneq
    cases hlt : lastTgt (pyLower (pyStrip raw)) n ((sortEntries entries).filter goodFile) with
    | none =>
      rw [hlt] at hneq
      exact absurd rfl hneq
    | some c =>
      obtain ⟨f, hf, hn, _⟩ := lastTgt_some hlt
      exact ⟨f, hf, hn.symm⟩

/-- C2 witness: for the concrete Potato directory, the flattened tree has a
file at Color/1f954.svg. -/
theorem C2_flattener_per_extension_witness :
    ∃ c, lookupFile (process_emoji_dir potatoDir false
        { tree := emptyTree, log := [] }).tree "Color"
      ("1f954" ++ pathSuffix "potato_color.svg") = some c :=
  (@C2_flattener_per_extension potatoDir "1F954" "1f954" "Color" [potatoEntry]
    { tree := emptyTree, log := [] } rfl (by decide) (by decide) (by decide) rfl
    (by decide)).1 potatoEntry (by decide)

/-- C3: When a "Default" variant subdirectory exists, only its style
subdirectories are the source: the Flattener result is independent both of
the emoji directory's direct style subdirectories and of every variant
subdirectory other than "Default" (e.g. light/medium/dark), so files under
sibling non-default variants never appear in the output. -/
theorem C3_default_variant_only {e : EmojiDir} (dry : Bool) (st : FS)
    (r1 r2 : String → Option (List Entry)) (v1 v2 : String → Option VariantDir)
    (hv1 : v1 "Default" = e.variants "Default")
    (hv2 : v2 "Default" = e.variants "Default")
    (hdef : (e.variants "Default").isSome = true) :
    process_emoji_dir { e with rootStyles := r1, variants := v1 } dry st =
      process_emoji_dir { e with rootStyles := r2, variants := v2 } dry st := by
  have hres : ∀ style, resolvedStyleDir { e with rootStyles := r1, variants := v1 } style =
      resolvedStyleDir { e with rootStyles := r2, variants := v2 } style := by
    intro style
    unfold resolvedStyleDir
    dsimp only
    rw [hv1, hv2]
    cases hd : e.variants "Default" with
    | none =>
      rw [hd] at hdef
      exact absurd hdef (by simp)
    | some v => rfl
  unfold process_emoji_dir
  dsimp only
  cases hm : e.meta with
  | absent => rfl
  | invalid => rfl
  | valid raw =>
    dsimp only
    by_cases hq : pyLower (pyStrip raw) = ""
    · rw [if_pos hq, if_pos hq]
    · rw [if_neg hq, if_neg hq]
      rw [← hm]
      have hstep : flatStep { e with rootStyles := r1, variants := v1 }
          (pyLower (pyStrip raw)) dry =
          flatStep { e with rootStyles := r2, variants := v2 }
            (pyLower (pyStrip raw)) dry := by
        funext st' style
        unfold flatStep
        rw [hres style]
      rw [hstep]

/-- C3 witness: for the concrete Octopus directory with a Default variant,
the result does not change when the direct style subdirectories and a
sibling Light variant are altered arbitrarily. -/
theorem C3_default_variant_only_witness :
    process_emoji_dir { octopusDir with
        rootStyles := fun s => if s = "Color" then some [eSvg] else none,
        variants := octopusDir.variants } false { tree := emptyTree, log := [] } =
      process_emoji_dir { octopusDir with
        rootStyles := fun _ => none,
        variants := fun v => if v = "Default" then some defaultVar
          else if v = "Light" then some { styles := fun _ => some [ePng] } else none }
        false { tree := emptyTree, log := [] } :=
  C3_default_variant_only false { tree := emptyTree, log := [] }
    (fun s => if s = "Color" then some [eSvg] else none) (fun _ => none)
    octopusDir.variants
    (fun v => if v = "Default" then some defaultVar
      else if v = "Light" then some { styles := fun _ => some [ePng] } else none)
    rfl rfl rfl

/-- C4: If the matched source extension for a code changes between two
Selector runs, then after the second run the destination holds exactly one
file for that code, at the new extension: the new name maps to the new
content, the old name is gone, and every other name matching the code glob
is gone. -/
theorem C4_extension_change {src1 src2 : List Entry} {style code : String} {f1 f2 : Entry}
    (st : SelState)
    (_hsel1 : selectPreferred code src1 = some f1)
    (hsel2 : selectPreferred code src2 = some f2)
    (hne1 : pathSuffix f1.name ≠ "")
    (_hne2 : pathSuffix f2.name ≠ "")
    (hdiff : pathSuffix f1.name ≠ pathSuffix f2.name) :
    lookupFile (processCode src2 style code false
        (processCode src1 style code false st)).tree style
      (code ++ pathSuffix f2.name) = some f2.content ∧
    lookupFile (processCode src2 style code false
        (processCode src1 style code false st)).tree style
      (code ++ pathSuffix f1.name) = none ∧
    (∀ n, globMatch code n = true → n ≠ code ++ pathSuffix f2.name →
      lookupFile (processCode src2 style code false
        (processCode src1 style code false st)).tree style n = none) := by
  have h2 := @processCode_tree_write src2 style code f2 hsel2
    (processCode src1 style code false st)
  have hlook : ∀ n, lookupFile (processCode src2 style code false
      (processCode src1 style code false st)).tree style n =
      dirWrite (dirEraseGlob code
        (((processCode src1 style code false st).tree style).getD emptyDir))
        (code ++ pathSuffix f2.name) f2.content n := by
    intro n
    unfold lookupFile
    rw [h2]
  have hno : ∀ n, globMatch code n = true → n ≠ code ++ pathSuffix f2.name →
      lookupFile (processCode src2 style code false
        (processCode src1 style code false st)).tree style n = none := by
    intro n hg hne
    rw [hlook]
    unfold dirWrite dirEraseGlob
    rw [if_neg hne, if_pos hg]
  refine ⟨?_, ?_, hno⟩
  · rw [hlook]
    unfold dirWrite
    rw [if_pos rfl]
  · refine hno (code ++ pathSuffix f1.name) (globMatch_code_pathSuffix hne1) ?_
    intro hcon
    exact hdiff (strAppend_left_cancel hcon)

/-- C4 witness: a run matching 26f8.svg followed by a run matching 26f8.png
leaves Color/26f8.png with the new content and no Color/26f8.svg. -/
theorem C4_extension_change_witness :
    lookupFile (processCode [ePngPlain] "Color" "26f8" false
        (processCode [eSvg] "Color" "26f8" false
          { tree := emptyTree, log := [], anyMissing := false })).tree "Color"
      ("26f8" ++ pathSuffix "26f8.png") = some "plain-png-bytes" ∧
    lookupFile (processCode [ePngPlain] "Color" "26f8" false
        (processCode [eSvg] "Color" "26f8" false
          { tree := emptyTree, log := [], anyMissing := false })).tree "Color"
      ("26f8" ++ pathSuffix "26f8.svg") = none := by
  have h := @C4_extension_change [eSvg] [ePngPlain] "Color" "26f8" eSvg ePngPlain
    { tree := emptyTree, log := [], anyMissing := false }
    (by decide) (by decide) (by decide) (by decide) (by decide)
  exact ⟨h.1, h.2.1⟩

/-- C5: Running the Selector twice with identical source tree, styles and
codes produces identical destination trees: at every style key the
directory exists after the second run exactly when it existed after the
first, and every file lookup agrees, so no additional files accumulate. -/
theorem C5_selector_idempotent (root : List (String × List Entry))
    (styles codes : List String) (t : OutTree) (log1 log2 : List Msg) (s n : String) :
    (((copy_matches root styles codes false
        (copy_matches root styles codes false t log1).tree log2).tree s).isSome =
      ((copy_matches root styles codes false t log1).tree s).isSome) ∧
    lookupFile (copy_matches root styles codes false
        (copy_matches root styles codes false t log1).tree log2).tree s n =
      lookupFile (copy_matches root styles codes false t log1).tree s n := by
  have h := stepFold_idem root codes styles t s n
  simp only [copy_matches_tree]
  exact h

/-- C6 counterexample: the claim asserts a non-zero exit for BOTH tools
when the root path is missing, but the Flattener main returns normally
after printing the error, so the process exit status is 0. -/
theorem C6_counterexample :
    (rename_main false [] false emptyTree).2 = 0 ∧
      Msg.errPathNotFound ∈ (rename_main false [] false emptyTree).1.log := by
  decide

/-- C6 amended: the Selector aborts with exit status 1 when the root path
or the unicode root is missing; the Flattener prints the error for a
missing root path but returns normally, exiting with status 0. -/
theorem C6_amended (root : List (String × List Entry)) (styles codes : List String)
    (dry : Bool) (t : OutTree) (dirs : List EmojiDir) :
    (copy_main false true root styles codes dry t).2 = 1 ∧
    (copy_main false false root styles codes dry t).2 = 1 ∧
    (copy_main true false root styles codes dry t).2 = 1 ∧
    (rename_main false dirs dry t).2 = 0 ∧
    (rename_main false dirs dry t).1.log = [Msg.errPathNotFound] :=
  ⟨rfl, rfl, rfl, rfl, rfl⟩

/-- C7: With the dry-run flag, both tools leave the destination tree
completely unchanged: the Selector's tree equals its input and it logs no
real copy action beyond those already present, the Flattener's tree equals
its input and its log holds no real copy action at all; the actions that
would have been taken are printed instead (a dry-run copy line is logged
for every resolvable style and code). -/
theorem C7_dry_run (root : List (String × List Entry)) (styles codes : List String)
    (t : OutTree) (log0 : List Msg) (re : Bool) (dirs : List EmojiDir) :
    (copy_matches root styles codes true t log0).tree = t ∧
    (∀ a b c, Msg.copy a b c ∈ (copy_matches root styles codes true t log0).log →
      Msg.copy a b c ∈ log0) ∧
    (rename_main re dirs true t).1.tree = t ∧
    (∀ a b c, ¬ (Msg.copy a b c ∈ (rename_main re dirs true t).1.log)) ∧
    (∀ style code src f, style ∈ styles → code ∈ codes →
      lookupDir root style = some src → selectPreferred code src = some f →
      Msg.dryRunCopy style f.name (code ++ pathSuffix f.name) ∈
        (copy_matches root styles codes true t log0).log) :=
  ⟨copy_matches_dry_tree root styles codes t log0,
   fun _ _ _ h => copy_matches_dry_no_copy h,
   rename_main_dry_tree re dirs t,
   fun _ _ _ h => rename_main_dry_no_copy h,
   fun _ _ _ _ hs hc hl hsel => copy_matches_emits_dryCopy hl hsel hs hc⟩

/-- C7 witness: a concrete dry run changes nothing and logs the copy it
would have performed. -/
theorem C7_dry_run_witness :
    (copy_matches demoRoot ["Color"] ["26f8"] true emptyTree []).tree = emptyTree ∧
      Msg.dryRunCopy "Color" "26f8.svg" ("26f8" ++ pathSuffix "26f8.svg") ∈
        (copy_matches demoRoot ["Color"] ["26f8"] true emptyTree []).log := by
  have h := C7_dry_run demoRoot ["Color"] ["26f8"] emptyTree [] false []
  exact ⟨h.1, h.2.2.2.2 "Color" "26f8" [ePng, eSvg] eSvg (by decide) (by decide)
    (by decide) (by decide)⟩

/-- C8: A subdirectory without a metadata record is skipped silently (it
contributes nothing at all to the run); one whose metadata cannot be read,
or whose unicode field is empty after normalization, only logs a warning;
in every case processing continues with the remaining emoji directories. -/
theorem C8_metadata_failures (e : EmojiDir) (rest : List EmojiDir) (dry : Bool) (st : FS) :
    (e.meta = MetaFile.absent →
      process_emoji_dir e dry st = st ∧
      processAll (e :: rest) dry st = processAll rest dry st) ∧
    (e.meta = MetaFile.invalid →
      process_emoji_dir e dry st = { st with log := st.log ++ [Msg.warnFailedRead e.name] } ∧
      processAll (e :: rest) dry st =
        processAll rest dry { st with log := st.log ++ [Msg.warnFailedRead e.name] }) ∧
    (∀ raw, e.meta = MetaFile.valid raw → pyLower (pyStrip raw) = "" →
      process_emoji_dir e dry st =
        { st with log := st.log ++ [Msg.warnMissingUnicode e.name] } ∧
      processAll (e :: rest) dry st =
        processAll rest dry { st with log := st.log ++ [Msg.warnMissingUnicode e.name] }) := by
  refine ⟨?_, ?_, ?_⟩
  · intro h
    have hp : process_emoji_dir e dry st = st := by
      unfold process_emoji_dir
      rw [h]
    refine ⟨hp, ?_⟩
    show processAll rest dry (process_emoji_dir e dry st) = _
    rw [hp]
  · intro h
    have hp : process_emoji_dir e dry st =
        { st with log := st.log ++ [Msg.warnFailedRead e.name] } := by
      unfold process_emoji_dir
      rw [h]
    refine ⟨hp, ?_⟩
    show processAll rest dry (process_emoji_dir e dry st) = _
    rw [hp]
  · intro raw h hq
    have hp : process_emoji_dir e dry st =
        { st with log := st.log ++ [Msg.warnMissingUnicode e.name] } := by
      unfold process_emoji_dir
      rw [h]
      dsimp only
      rw [if_pos hq]
    refine ⟨hp, ?_⟩
    show processAll rest dry (process_emoji_dir e dry st) = _
    rw [hp]

/-- C8 witness: concrete directories with absent, unreadable, and
code-less metadata behave as the claim states. -/
theorem C8_metadata_failures_witness :
    process_emoji_dir noMetaDir false { tree := emptyTree, log := [] } =
      { tree := emptyTree, log := [] } ∧
    process_emoji_dir badMetaDir false { tree := emptyTree, log := [] } =
      { tree := emptyTree, log := [Msg.warnFailedRead "Broken"] } ∧
    process_emoji_dir emptyCodeDir false { tree := emptyTree, log := [] } =
      { tree := emptyTree, log := [Msg.warnMissingUnicode "Blank"] } := by
  have h1 := C8_metadata_failures noMetaDir [] false { tree := emptyTree, log := [] }
  have h2 := C8_metadata_failures badMetaDir [] false { tree := emptyTree, log := [] }
  have h3 := C8_metadata_failures emptyCodeDir [] false { tree := emptyTree, log := [] }
  exact ⟨(h1.1 rfl).1, (h2.2.1 rfl).1, (h3.2.2 "   " rfl (by decide)).1⟩

/-- C9: A requested code with no matching file in an existing style
directory yields a warning for that (style, code) pair and a summary
warning; every other resolvable (style, code) pair is still processed
(its copy is logged); and the Selector main exits with status 0 when both
roots exist. -/
theorem C9_missing_asset {root : List (String × List Entry)} {styles codes : List String}
    {style code : String} {src : List Entry} (t : OutTree) (log0 : List Msg)
    (hstyle : style ∈ styles) (hcode : code ∈ codes)
    (hl : lookupDir root style = some src)
    (hnomatch : ∀ e ∈ src, globMatch code e.name = false) :
    Msg.warnNotFound style code ∈ (copy_matches root styles codes false t log0).log ∧
    Msg.summaryMissing ∈ (copy_matches root styles codes false t log0).log ∧
    (∀ style2 code2 src2 f2, style2 ∈ styles → code2 ∈ codes →
      lookupDir root style2 = some src2 → selectPreferred code2 src2 = some f2 →
      Msg.copy style2 f2.name (code2 ++ pathSuffix f2.name) ∈
        (copy_matches root styles codes false t log0).log) ∧
    (copy_main true true root styles codes false t).2 = 0 := by
  have hsel := selectPreferred_none hnomatch
  have hw := @copy_matches_emits_warn root styles codes style code src false t log0
    hl hsel hstyle hcode
  exact ⟨hw.1, hw.2,
    fun _ _ _ _ hs2 hc2 hl2 hsel2 => copy_matches_emits_copy hl2 hsel2 hs2 hc2, rfl⟩

/-- C9 witness: requesting the absent code ffffff alongside 26f8 warns,
emits the summary, still copies 26f8, and main exits 0. -/
theorem C9_missing_asset_witness :
    Msg.warnNotFound "Color" "ffffff" ∈
      (copy_matches demoRoot ["Color"] ["26f8", "ffffff"] false emptyTree []).log ∧
    Msg.summaryMissing ∈
      (copy_matches demoRoot ["Color"] ["26f8", "ffffff"] false emptyTree []).log ∧
    Msg.copy "Color" "26f8.svg" ("26f8" ++ pathSuffix "26f8.svg") ∈
      (copy_matches demoRoot ["Color"] ["26f8", "ffffff"] false emptyTree []).log := by
  have h := @C9_missing_asset demoRoot ["Color"] ["26f8", "ffffff"] "Color" "ffffff"
    [ePng, eSvg] emptyTree [] (by decide) (by decide) (by decide) (by decide)
  exact ⟨h.1, h.2.1, h.2.2.1 "Color" "26f8" [ePng, eSvg] eSvg (by decide) (by decide)
    (by decide) (by decide)⟩

/-- C10: When one requested code is a proper string prefix of another,
every file of the longer code is a candidate of the shorter code's glob
search, and a non-dry run of the shorter code removes every destination
entry matching its glob other than its own normalized name — including the
destination files of the longer code. -/
theorem C10_prefix_interference {code codeB : String} {s : List Char}
    (hpre : codeB.toList = code.toList ++ s) :
    (∀ n, globMatch codeB n = true → globMatch code n = true) ∧
    (∀ (src : List Entry) (style : String) (st : SelState) (f : Entry) (ext2 : String),
      selectPreferred code src = some f → '.' ∈ ext2.toList →
      codeB ++ ext2 ≠ code ++ pathSuffix f.name →
      lookupFile (processCode src style code false st).tree style (codeB ++ ext2) = none) := by
  constructor
  · intro n h
    exact globMatch_mono hpre h
  · intro src style st f ext2 hsel hdot hne
    have hw := @processCode_tree_write src style code f hsel st
    unfold lookupFile
    rw [hw]
    unfold dirWrite dirEraseGlob
    dsimp only
    rw [if_neg hne, if_pos (globMatch_prefix_ext hpre hdot)]

/-- C10 witness: with codes 1f40 and 1f40b, the file 1f40b.png is a
candidate of 1f40's search, and processing 1f40 deletes a pre-existing
destination file 1f40b.png belonging to the distinct code 1f40b. -/
theorem C10_prefix_interference_witness :
    globMatch "1f40" "1f40b.png" = true ∧
    lookupFile (processCode [whaleSvg] "Color" "1f40" false
        { tree := fun s => if s = "Color" then
            some (fun n => if n = "1f40b.png" then some "old-dest" else none) else none,
          log := [], anyMissing := false }).tree "Color" "1f40b.png" = none := by
  have h := @C10_prefix_interference "1f40" "1f40b" ['b'] (by decide)
  refine ⟨h.1 "1f40b.png" (by decide), ?_⟩
  have h2 := h.2 [whaleSvg] "Color"
    { tree := fun s => if s = "Color" then
        some (fun n => if n = "1f40b.png" then some "old-dest" else none) else none,
      log := [], anyMissing := false } whaleSvg ".png" (by decide) (by decide) (by decide)
  exact h2
